import Mathlib

/-!
Verification of the log-structured KV storage engine
(`NodeFileSystemStorageBackend`) and the shared `list` pagination logic
of this repository, via a shallow embedding.

Modelling conventions (stated once, used throughout):
* A file is a `List Nat` of bytes; every byte written by the engine is
  produced by the `writeUInt*` helpers below and is `< 256` by construction.
* JavaScript strings (keys) are modelled by their UTF-8 byte sequences
  (`List Nat`); UTF-8 encoding is injective, so key equality and the
  lexicographic order used by `Array.prototype.sort` coincide with byte-wise
  equality and byte-wise lexicographic order (up to the astral-plane
  UTF-16 corner, which no claim depends on).
* JavaScript numbers holding epoch-millisecond timestamps are modelled as
  `Nat` (they are integers far below `2 ^ 53`, hence exact in binary64).
  The 8-byte `writeDoubleLE` field stores the IEEE-754 binary64 bit
  pattern, computed by `doubleBitsOfNat` (exact for inputs `< 2 ^ 53`);
  the recovery scanner keeps the raw 64-bit pattern it read and maps the
  JavaScript-falsy doubles (`+0`, `-0`, `NaN`) to `none`, mirroring
  `expiresAt || null` in the source.
* `put` receives the already-encoded value bytes (the JSON/text/Blob
  conversion happens above the byte layout and is value-faithful).
* File descriptors are modelled by the id of the segment they point at;
  the read-fd cache (a pure I/O-handle optimisation) is not modelled.
-/

namespace KVLG

/-- Magic constant at the start of every record header (`0x4b564c47`). -/
def MAGIC : Nat := 0x4b564c47

/-- Format version byte. -/
def VERSION : Nat := 1

/-- Size in bytes of the fixed record header. -/
def HEADER_SIZE : Nat := 24

/-- Flag bit 0: tombstone. -/
def FLAG_TOMBSTONE : Nat := 1

/-- Little-endian 2-byte encoding of a `Nat` (as `Buffer.writeUInt16LE`;
Node rejects out-of-range inputs, so callers satisfy `n < 2 ^ 16`). -/
def writeUInt16LE (n : Nat) : List Nat :=
  [n % 256, n / 256 % 256]

/-- Little-endian 4-byte encoding of a `Nat` (as `Buffer.writeUInt32LE`). -/
def writeUInt32LE (n : Nat) : List Nat :=
  [n % 256, n / 256 % 256, n / 65536 % 256, n / 16777216 % 256]

/-- Little-endian 8-byte encoding of a `Nat` (the byte layout that
`Buffer.writeDoubleLE` produces once the double's bit pattern is known). -/
def writeUInt64LE (n : Nat) : List Nat :=
  [n % 256, n / 256 % 256, n / 65536 % 256, n / 16777216 % 256,
   n / 4294967296 % 256, n / 1099511627776 % 256,
   n / 281474976710656 % 256, n / 72057594037927936 % 256]

/-- Byte of a file at an index (reads performed by the engine are always
in bounds; the default is never observable under the scan guards). -/
def byteAt (f : List Nat) (i : Nat) : Nat := f.getD i 0

/-- `Buffer.readUInt16LE` at an absolute file position. -/
def readUInt16LE (f : List Nat) (p : Nat) : Nat :=
  byteAt f p + 256 * byteAt f (p + 1)

/-- `Buffer.readUInt32LE` at an absolute file position. -/
def readUInt32LE (f : List Nat) (p : Nat) : Nat :=
  byteAt f p + 256 * byteAt f (p + 1) + 65536 * byteAt f (p + 2) +
    16777216 * byteAt f (p + 3)

/-- The 64-bit pattern read by `Buffer.readDoubleLE` at a file position. -/
def readUInt64LE (f : List Nat) (p : Nat) : Nat :=
  readUInt32LE f p + 4294967296 * readUInt32LE f (p + 4)

/-- Contiguous byte slice of a file: `n` bytes starting at `p`. -/
def sliceBytes (f : List Nat) (p n : Nat) : List Nat :=
  (f.drop p).take n

/-- IEEE-754 binary64 bit pattern of a natural number (exact for
`x < 2 ^ 53`, which covers every epoch-millisecond timestamp). -/
def doubleBitsOfNat (x : Nat) : Nat :=
  if x = 0 then 0
  else
    let e := Nat.log2 x
    if e ≤ 52 then (e + 1023) * 2 ^ 52 + (x * 2 ^ (52 - e) - 2 ^ 52)
    else (e + 1023) * 2 ^ 52 + (x / 2 ^ (e - 52) - 2 ^ 52)

/-- JavaScript-falsy binary64 bit patterns: `+0`, `-0` and `NaN`
(exponent field all ones with a nonzero mantissa). -/
def jsFalsyBits (b : Nat) : Bool :=
  b == 0 || b == 2 ^ 63 || (b / 2 ^ 52 % 2 ^ 11 == 2047 && b % 2 ^ 52 != 0)

/-- The recovery scanner's `expiresAt || null`: keep the bit pattern read
from disk unless it denotes a falsy double. -/
def recExpBits (b : Nat) : Option Nat :=
  if jsFalsyBits b then none else some b

/-- Keys are UTF-8 byte sequences. -/
abbrev Key := List Nat

/-- The four stored encodings, in the order of the `encodingMap` table. -/
inductive Enc where
  | text
  | json
  | clone
  | binary
deriving DecidableEq, Repr

/-- Numeric tag of an encoding (`encodingMap` in the source). -/
def Enc.tag : Enc → Nat
  | .text => 0
  | .json => 1
  | .clone => 2
  | .binary => 3

/-- Mapping an encoding flag back to an encoding on `get`
(`encodings[encodingFlag] || "binary"`). -/
def encOfFlag (n : Nat) : Enc :=
  if n = 0 then .text else if n = 1 then .json
  else if n = 2 then .clone else .binary

/-- One entry of the in-memory index: the fields of the object stored in
`this.index`.  `expiresAt` holds the epoch-ms value on the write path and
the raw binary64 pattern on the recovery path (see the header comment). -/
structure Entry where
  fileId : Nat
  offset : Nat
  size : Nat
  ts : Nat
  expiresAt : Option Nat
  metadata : Option Nat
deriving DecidableEq, Repr

/-- The in-memory index, modelling a JavaScript `Map` as an association
list in insertion order. -/
abbrev Index := List (Key × Entry)

/-- `Map.get`. -/
def idxGet (i : Index) (k : Key) : Option Entry :=
  (i.find? (fun p => p.1 == k)).map (·.2)

/-- `Map.set`: overwrite in place if the key exists, else append. -/
def idxSet (i : Index) (k : Key) (e : Entry) : Index :=
  if i.any (fun p => p.1 == k) then
    i.map (fun p => if p.1 == k then (k, e) else p)
  else i ++ [(k, e)]

/-- `Map.delete`. -/
def idxDelete (i : Index) (k : Key) : Index :=
  i.filter (fun p => ¬ p.1 == k)

/-- A logical record handed to `put`: key bytes, already-encoded value
bytes, encoding tag, timestamps, optional expiry (epoch ms) and optional
metadata (modelled opaquely as a `Nat`). -/
structure Rec where
  key : Key
  val : List Nat
  enc : Enc
  updatedAt : Nat
  expiresAt : Option Nat
  metadata : Option Nat
deriving DecidableEq, Repr

/-- Record header: magic, version, flags, key length, value length,
32-bit timestamp, 8 expiry bytes — 24 bytes total. -/
def encodeHeader (flags keyLen valLen ts expBits : Nat) : List Nat :=
  writeUInt32LE MAGIC ++ [VERSION % 256, flags % 256] ++
    writeUInt16LE keyLen ++ writeUInt32LE valLen ++ writeUInt32LE ts ++
    writeUInt64LE expBits

/-- Bytes appended by `put` for one record: header, key bytes, value
bytes (the three buffers of the vectored write). -/
def encodePut (r : Rec) : List Nat :=
  encodeHeader (r.enc.tag * 2) r.key.length r.val.length
    (r.updatedAt % 2 ^ 32) (doubleBitsOfNat (r.expiresAt.getD 0)) ++
    r.key ++ r.val

/-- Bytes appended by `delete` for a tombstone: header with the tombstone
flag, zero value length, zeroed expiry bytes, then the key bytes. -/
def encodeTomb (k : Key) (now : Nat) : List Nat :=
  encodeHeader FLAG_TOMBSTONE k.length 0 (now % 2 ^ 32) 0 ++ k

/-- A disk record is either a `put` record or a tombstone. -/
inductive DRec where
  | data (r : Rec)
  | tomb (k : Key) (now : Nat)
deriving DecidableEq, Repr

/-- Encoded bytes of a disk record. -/
def encodeD : DRec → List Nat
  | .data r => encodePut r
  | .tomb k now => encodeTomb k now

/-- Total encoded size of a disk record. -/
def sizeD : DRec → Nat
  | .data r => HEADER_SIZE + r.key.length + r.val.length
  | .tomb k _ => HEADER_SIZE + k.length

/-- Key of a disk record. -/
def keyD : DRec → Key
  | .data r => r.key
  | .tomb k _ => k

/-- Validity bounds enforced by the Node `Buffer` writers: the key length
fits the 16-bit field, the value length fits the 32-bit field, and the
expiry is an exactly representable binary64 integer. -/
def ValidD : DRec → Prop
  | .data r => r.key.length < 2 ^ 16 ∧ r.val.length < 2 ^ 32 ∧
      r.expiresAt.getD 0 < 2 ^ 53
  | .tomb k _ => k.length < 2 ^ 16

/-- Concatenation of encoded disk records: the contents of a segment file
that was produced purely by complete appends. -/
def concatD (ds : List DRec) : List Nat :=
  (ds.map encodeD).flatten

/-! ## Recovery scanner

The `while` loop of `recoverIndex` for one segment, as structural
recursion on a fuel counter (one unit per loop iteration; the canonical
fuel below always suffices because every iteration advances the position
by at least `HEADER_SIZE` bytes).  Recovery never fails: every malformed
or truncated region simply ends the scan of the segment. -/

/-- One segment's scan loop.  At position `pos` of `file`: stop unless a
full header fits; stop on a magic mismatch; decode the header fields;
stop if the declared record extends past the end of the file; otherwise
apply the record to the index and continue after it. -/
def scanGo (segId : Nat) (file : List Nat) : Nat → Nat → Index → Index
  | 0, _, idx => idx
  | fuel + 1, pos, idx =>
    if pos + HEADER_SIZE ≤ file.length then
      if readUInt32LE file pos = MAGIC then
        let flags := byteAt file (pos + 5)
        let keyLen := readUInt16LE file (pos + 6)
        let valLen := readUInt32LE file (pos + 8)
        let ts := readUInt32LE file (pos + 12)
        let expBits := readUInt64LE file (pos + 16)
        let total := HEADER_SIZE + keyLen + valLen
        if pos + total ≤ file.length then
          let keyStr := sliceBytes file (pos + HEADER_SIZE) keyLen
          let idx' :=
            if flags % 2 = 1 then idxDelete idx keyStr
            else idxSet idx keyStr
              ⟨segId, pos, total, ts, recExpBits expBits, none⟩
          scanGo segId file fuel (pos + total) idx'
        else idx
      else idx
    else idx

/-- Replay one segment file into the index (`recoverIndex` body for one
segment, starting at position 0). -/
def recoverSegment (idx : Index) (segId : Nat) (file : List Nat) : Index :=
  scanGo segId file (file.length + 1) 0 idx

/-- Replay all segments, in the (ascending-id) order given, into the
index (`recoverIndex`). -/
def recoverAll (idx : Index) (segs : List (Nat × List Nat)) : Index :=
  segs.foldl (fun i s => recoverSegment i s.1 s.2) idx

/-- Index effect of one disk record found at position `pos` of segment
`segId`: a tombstone removes its key, a data record overwrites the
entry with the recovered fields (metadata recovery is not implemented). -/
def applyD (segId pos : Nat) (idx : Index) : DRec → Index
  | .data r =>
    idxSet idx r.key
      ⟨segId, pos, sizeD (.data r), r.updatedAt % 2 ^ 32,
        recExpBits (doubleBitsOfNat (r.expiresAt.getD 0)), none⟩
  | .tomb k _ => idxDelete idx k

/-- Semantic replay of a list of disk records laid out consecutively from
position `pos`: the reference point that both the byte-level scan and
the engine's in-memory bookkeeping are proved to agree with. -/
def scanSemFrom (segId : Nat) : Nat → Index → List DRec → Index
  | _, idx, [] => idx
  | pos, idx, d :: ds =>
    scanSemFrom segId (pos + sizeD d) (applyD segId pos idx d) ds

/-! ## Engine state and operations -/

/-- State of one `NodeFileSystemStorageBackend` instance together with
its data directory.  `disk` maps segment ids to file contents; it
persists across `close` (files outlive the instance).  `activeFd` holds
the id of the segment the append handle points at. -/
structure EngineState where
  opened : Bool
  activeId : Nat
  activeFd : Option Nat
  activeSize : Nat
  activeOffset : Nat
  index : Index
  segmentMaxBytes : Nat
  disk : List (Nat × List Nat)
deriving DecidableEq, Repr

/-- Default segment size bound (32 MiB). -/
def defaultSegmentMaxBytes : Nat := 32 * 1024 * 1024

/-- A freshly constructed instance over an existing directory content
(the constructor only records the directory; everything else happens in
`ensureOpened`). -/
def initState (max : Nat) (disk : List (Nat × List Nat)) : EngineState :=
  { opened := false, activeId := 1, activeFd := none, activeSize := 0,
    activeOffset := 0, index := [], segmentMaxBytes := max, disk := disk }

/-- Contents of a segment file, if present in the directory. -/
def diskGet (d : List (Nat × List Nat)) (id : Nat) : Option (List Nat) :=
  (d.find? (fun e => e.1 == id)).map (·.2)

/-- Append bytes to a segment file. -/
def diskAppend (d : List (Nat × List Nat)) (id : Nat) (bytes : List Nat) :
    List (Nat × List Nat) :=
  d.map (fun e => if e.1 == id then (e.1, e.2 ++ bytes) else e)

/-- Insertion step for sorting segments by ascending id
(`segments.sort((a, b) => a.id - b.id)`). -/
def insertSeg (x : Nat × List Nat) :
    List (Nat × List Nat) → List (Nat × List Nat)
  | [] => [x]
  | y :: ys => if y.1 < x.1 then y :: insertSeg x ys else x :: y :: ys

/-- Sort the directory's segment files by ascending id (`listSegments`;
the 6-digit filename round trip is the identity on ids and is not
modelled). -/
def sortSegs : List (Nat × List Nat) → List (Nat × List Nat)
  | [] => []
  | x :: xs => insertSeg x (sortSegs xs)

/-- Open a segment for appending (`fs.openSync(p, "a+")` creates the
file when missing) and make it the active one. -/
def openActiveForAppend (s : EngineState) (id : Nat) : EngineState :=
  { s with
    activeFd := some id, activeId := id,
    disk := if (diskGet s.disk id).isSome then s.disk else s.disk ++ [(id, [])] }

/-- Close the current append handle, open segment `activeId + 1`, and
reset the size/offset counters. -/
def rotate (s : EngineState) : EngineState :=
  let s1 := { s with activeFd := none }
  let s2 := openActiveForAppend s1 (s1.activeId + 1)
  { s2 with activeSize := 0, activeOffset := 0 }

/-- Lazy open: on the first operation (or the first operation after a
`close`), create the directory, list and replay the segments into the
index, open the newest segment for appending, mirror its size into the
counters, and rotate immediately if it is already full. -/
def ensureOpened (s : EngineState) : EngineState :=
  if s.opened then s
  else
    let segs := sortSegs s.disk
    match segs.getLast? with
    | none =>
      let s1 := openActiveForAppend s 1
      { s1 with opened := true }
    | some newest =>
      let s1 := { s with index := recoverAll s.index segs }
      let s2 := openActiveForAppend { s1 with activeId := newest.1 } newest.1
      let sz := newest.2.length
      let s3 := { s2 with activeSize := sz, activeOffset := sz }
      let s4 := if sz ≥ s3.segmentMaxBytes then rotate s3 else s3
      { s4 with opened := true }

/-- `put`: open lazily, rotate first when the record would overflow the
active segment, append header+key+value in one vectored write, advance
the counters, and only then point the index at the new location. -/
def putOp (s : EngineState) (r : Rec) : EngineState :=
  let s := ensureOpened s
  let totalLen := HEADER_SIZE + r.key.length + r.val.length
  let s := if s.activeSize + totalLen > s.segmentMaxBytes then rotate s else s
  let writeOffset := s.activeOffset
  let s := { s with disk := diskAppend s.disk s.activeId (encodePut r) }
  { s with
    activeOffset := s.activeOffset + totalLen,
    activeSize := s.activeSize + totalLen,
    index := idxSet s.index r.key
      ⟨s.activeId, writeOffset, totalLen, r.updatedAt, r.expiresAt, r.metadata⟩ }

/-- `delete`: a no-op when the key is absent from the index; otherwise
rotate if needed, append a tombstone, and remove the index entry. -/
def deleteOp (s : EngineState) (k : Key) (now : Nat) : EngineState :=
  let s := ensureOpened s
  match idxGet s.index k with
  | none => s
  | some _ =>
    let totalLen := HEADER_SIZE + k.length
    let s := if s.activeSize + totalLen > s.segmentMaxBytes then rotate s else s
    let s := { s with disk := diskAppend s.disk s.activeId (encodeTomb k now) }
    { s with
      activeOffset := s.activeOffset + totalLen,
      activeSize := s.activeSize + totalLen,
      index := idxDelete s.index k }

/-- Result of a successful `get`, with the value as its raw bytes. -/
structure GetResult where
  value : List Nat
  enc : Enc
  expiresAt : Option Nat
  metadata : Option Nat
  createdAt : Nat
  updatedAt : Nat
deriving DecidableEq, Repr

/-- JavaScript truthiness of the nullable epoch-ms expiry combined with
the comparison against the clock: `meta.expiresAt && meta.expiresAt <= now`. -/
def isExpiredJS (e : Option Nat) (now : Nat) : Bool :=
  match e with
  | none => false
  | some v => v != 0 && v ≤ now

/-- `get`: open lazily, look the key up, treat a passed expiry as a miss
(the fire-and-forget lazy delete does not affect the returned value and
is not modelled), otherwise read the header and payload back from the
record's segment and return the value bytes.  Returns the possibly
re-opened state alongside the result. -/
def getOp (s : EngineState) (k : Key) (now : Nat) :
    EngineState × Option GetResult :=
  let s := ensureOpened s
  match idxGet s.index k with
  | none => (s, none)
  | some meta =>
    if isExpiredJS meta.expiresAt now then (s, none)
    else
      let file := (diskGet s.disk meta.fileId).getD []
      let keyLen := readUInt16LE file (meta.offset + 6)
      let valLen := readUInt32LE file (meta.offset + 8)
      let encodingFlag := byteAt file (meta.offset + 5) / 2
      let payload := sliceBytes file (meta.offset + HEADER_SIZE) (keyLen + valLen)
      let valueBuf := payload.drop keyLen
      (s, some ⟨valueBuf, encOfFlag encodingFlag, meta.expiresAt,
        meta.metadata, meta.ts, meta.ts⟩)

/-- `close`: release the append handle and forget it; the directory
contents persist.  A no-op when the instance is not open. -/
def closeOp (s : EngineState) : EngineState :=
  if s.opened then { s with opened := false, activeFd := none } else s

/-! ## Listing with prefix, limit and cursor

The `list` bodies of the log-structured backend and the in-memory
backend are textually identical up to where the per-key entry comes
from, so they share `listCore` below, instantiated with the respective
lookup function and key enumeration. -/

/-- Strict lexicographic order on keys: the order `<`/`>` and the
default `sort()` comparator induce on JavaScript strings. -/
def keyLt : Key → Key → Bool
  | [], [] => false
  | [], _ :: _ => true
  | _ :: _, [] => false
  | a :: as, b :: bs =>
    if a < b then true else if b < a then false else keyLt as bs

/-- `String.prototype.startsWith`: byte-wise prefix test. -/
def startsWithB : Key → Key → Bool
  | [], _ => true
  | _ :: _, [] => false
  | p :: ps, k :: ks => p == k && startsWithB ps ks

/-- Insertion step of sorting keys in ascending order. -/
def insertKeyAsc (x : Key) : List Key → List Key
  | [] => [x]
  | y :: ys => if keyLt y x then y :: insertKeyAsc x ys else x :: y :: ys

/-- Ascending sort of the filtered keys (`Array.prototype.sort`). -/
def sortKeys : List Key → List Key
  | [] => []
  | x :: xs => insertKeyAsc x (sortKeys xs)

/-- Decoded internal pagination cursor `{v: 1, prefix, after}`. -/
structure CursorData where
  v : Nat
  pfx : Key
  after : Option Key
deriving DecidableEq, Repr

/-- An opaque cursor string: either the base64url-JSON serialisation of
a `CursorData` (the serialisation is injective and is modelled by the
constructor itself) or any other string. -/
inductive CursorStr where
  | enc (c : CursorData)
  | junk
deriving DecidableEq, Repr

/-- `encodeCursor`. -/
def encodeCursor (c : CursorData) : CursorStr := .enc c

/-- `decodeCursor`: parse and validate the shape, requiring `v === 1`;
anything else yields `null`. -/
def decodeCursor : CursorStr → Option CursorData
  | .enc c => if c.v = 1 then some c else none
  | .junk => none

/-- `list` options (`limit` is a JavaScript number and may be negative). -/
structure ListOptionsM where
  pfx : Option Key
  limit : Option Int
  cursor : Option CursorStr
deriving DecidableEq, Repr

/-- One element of a `list` result (`{name, expiration?, metadata?}`). -/
structure KVListKeyM where
  name : Key
  expiration : Option Nat
  metadata : Option Nat
deriving DecidableEq, Repr

/-- A `list` result page. -/
structure ListResultM where
  keys : List KVListKeyM
  list_complete : Bool
  cursor : Option CursorStr
deriving DecidableEq, Repr

/-- Expiry and metadata of a stored entry, as consumed by `list`. -/
structure LEntry where
  expiresAt : Option Nat
  metadata : Option Nat
deriving DecidableEq, Repr

/-- Result element for one listed key: `expiration` only for a truthy
expiry (converted to epoch seconds), `metadata` only when present. -/
def mkListKey (k : Key) (e : LEntry) : KVListKeyM :=
  { name := k,
    expiration :=
      match e.expiresAt with
      | some v => if v ≠ 0 then some (v / 1000) else none
      | none => none,
    metadata := e.metadata }

/-- The collection loop of `list`: stop with `list_complete = false` as
soon as another key is seen while the page is full, skip keys that have
expired (and keys whose entry has vanished, which cannot happen for the
enumerations used), and record the last key added to the page. -/
def listLoop (lookup : Key → Option LEntry) (now limit : Nat) :
    List Key → List KVListKeyM → Option Key →
    List KVListKeyM × Option Key × Bool
  | [], acc, lastKey => (acc, lastKey, true)
  | k :: rest, acc, lastKey =>
    if acc.length ≥ limit then (acc, lastKey, false)
    else
      match lookup k with
      | none => listLoop lookup now limit rest acc lastKey
      | some e =>
        if isExpiredJS e.expiresAt now then
          listLoop lookup now limit rest acc lastKey
        else
          listLoop lookup now limit rest (acc ++ [mkListKey k e]) (some k)

/-- Whether the loop would keep a key: it must be present in the lookup
and not expired. -/
def liveB (lookup : Key → Option LEntry) (now : Nat) (k : Key) : Bool :=
  match lookup k with
  | none => false
  | some e => ! isExpiredJS e.expiresAt now

/-- Reference shape of the page the collection loop produces: up to `n`
live keys, in order. -/
def takeLiveKV (lookup : Key → Option LEntry) (now : Nat) :
    Nat → List Key → List KVListKeyM
  | _, [] => []
  | 0, _ :: _ => []
  | n + 1, k :: ks =>
    match lookup k with
    | none => takeLiveKV lookup now (n + 1) ks
    | some e =>
      if isExpiredJS e.expiresAt now then takeLiveKV lookup now (n + 1) ks
      else mkListKey k e :: takeLiveKV lookup now n ks

/-- Reference shape of the loop's `listComplete` flag: false exactly
when the loop broke with a key still pending. -/
def loopComp (lookup : Key → Option LEntry) (now : Nat) :
    Nat → List Key → Bool
  | _, [] => true
  | 0, _ :: _ => false
  | n + 1, k :: ks =>
    match lookup k with
    | none => loopComp lookup now (n + 1) ks
    | some e =>
      if isExpiredJS e.expiresAt now then loopComp lookup now (n + 1) ks
      else loopComp lookup now n ks

/-- Cursor-based resumption: drop everything up to and including the
first position whose key exceeds `after`
(`keys.findIndex((k) => k > after)` then `slice`). -/
def sliceAfter (keys : List Key) (a : Key) : List Key :=
  match keys.findIdx? (fun k => keyLt a k) with
  | some i => keys.drop i
  | none => []

/-- Reference shape of the loop's last-added-key bookkeeping: the name
of the last element of the page just collected, or the incoming value
when nothing was added. -/
def lastName (page : List KVListKeyM) (last : Option Key) : Option Key :=
  match page.getLast? with
  | some kv => some kv.name
  | none => last

/-- The result page `list` produces once the sequence of candidate keys
to scan is fixed: the tail of `listCore` after prefix, limit and cursor
resolution. -/
def pageOf (lookup : Key → Option LEntry) (now lim : Nat) (p : Key)
    (ks : List Key) : ListResultM :=
  match listLoop lookup now lim ks [] none with
  | (resultKeys, lastKey, listComplete) =>
    if ¬ listComplete then
      match lastKey with
      | some lk =>
        { keys := resultKeys, list_complete := false,
          cursor := some (encodeCursor ⟨1, p, some lk⟩) }
      | none => { keys := resultKeys, list_complete := true, cursor := none }
    else { keys := resultKeys, list_complete := true, cursor := none }

/-- Shared body of `list`: default the prefix, clamp the limit into
`[1, 10000]` with default 1000, decode and validate the cursor (it must
carry the same prefix), filter and sort the keys, resume after the
cursor, run the collection loop, and attach a continuation cursor when
the listing is incomplete. -/
def listCore (lookup : Key → Option LEntry) (allKeys : List Key)
    (o : ListOptionsM) (now : Nat) : ListResultM :=
  let p := o.pfx.getD []
  let limit := (min (max 1 (o.limit.getD 1000)) 10000).toNat
  let after : Option Key :=
    match o.cursor with
    | none => none
    | some cs =>
      match decodeCursor cs with
      | some d => if d.pfx = p then d.after else none
      | none => none
  let keys := sortKeys (allKeys.filter (fun k => startsWithB p k))
  let keys :=
    match after with
    | none => keys
    | some a => sliceAfter keys a
  let res := listLoop lookup now limit keys [] none
  match res with
  | (resultKeys, lastKey, listComplete) =>
    if ¬ listComplete then
      match lastKey with
      | some lk =>
        { keys := resultKeys, list_complete := false,
          cursor := some (encodeCursor ⟨1, p, some lk⟩) }
      | none => { keys := resultKeys, list_complete := true, cursor := none }
    else { keys := resultKeys, list_complete := true, cursor := none }

/-- Entry lookup used by the log-structured backend's `list`
(`this.index.get(key)!`). -/
def idxLookup (i : Index) (k : Key) : Option LEntry :=
  (idxGet i k).map (fun e => ⟨e.expiresAt, e.metadata⟩)

/-- `list` of the log-structured backend: open lazily, then run the
shared body over the index. -/
def listOp (s : EngineState) (o : ListOptionsM) (now : Nat) :
    EngineState × ListResultM :=
  let s := ensureOpened s
  (s, listCore (idxLookup s.index) (s.index.map (·.1)) o now)

/-- State of the in-memory backend: a `Map` from keys to records. -/
structure MemState where
  data : List (Key × Rec)
deriving DecidableEq, Repr

/-- `Map.get` of the in-memory backend's data. -/
def memGet (d : List (Key × Rec)) (k : Key) : Option Rec :=
  (d.find? (fun p => p.1 == k)).map (·.2)

/-- `list` of the in-memory backend: the same body over the data map
(`if (!rec) continue` is the `none` branch of the loop). -/
def memList (st : MemState) (o : ListOptionsM) (now : Nat) : ListResultM :=
  listCore (fun k => (memGet st.data k).map (fun r => ⟨r.expiresAt, r.metadata⟩))
    (st.data.map (·.1)) o now

/-- Effective page limit: the clamp both backends apply to the requested
limit (`Math.min(Math.max(1, options.limit ?? 1000), 10000)`). -/
def effLimit (limit : Option Int) : Nat :=
  (min (max 1 (limit.getD 1000)) 10000).toNat

/-! ## TTL arithmetic (`internal/ttl.ts`) -/

/-- `KVPutOptions` fields relevant to expiry (seconds; JavaScript
numbers, possibly negative). -/
structure KVPutOptionsM where
  expirationTtl : Option Int
  expiration : Option Int
deriving DecidableEq, Repr

/-- `computeExpiresAtMs`: a TTL is clamped at 0 and added to the clock;
an absolute expiration is converted from epoch seconds to ms. -/
def computeExpiresAtMs (o : Option KVPutOptionsM) (now : Nat) : Option Int :=
  match o with
  | none => none
  | some o =>
    match o.expirationTtl with
    | some ttl => some ((now : Int) + max 0 ttl * 1000)
    | none =>
      match o.expiration with
      | some e => some (e * 1000)
      | none => none

/-! ## Effect traces of `put` (durability before visibility)

The body of `put` on an already-open instance, read off the source in
statement order, as a list of observable effects: the optional rotation,
then the vectored append (which completes when `fsWritev` resolves),
then — and only then — the index update. -/

/-- One observable effect of an engine operation. -/
inductive Ev where
  | evRotate (newId : Nat)
  | evAppend (fileId offset : Nat) (bytes : List Nat)
  | evIndexSet (k : Key) (e : Entry)
  | evIndexDel (k : Key)
deriving DecidableEq, Repr

/-- Whether an effect is a rotation. -/
def Ev.isRotate : Ev → Bool
  | .evRotate _ => true
  | _ => false

/-- Apply one effect to the state. -/
def applyEv (s : EngineState) : Ev → EngineState
  | .evRotate _ => rotate s
  | .evAppend fid off bytes =>
    { s with
      disk := diskAppend s.disk fid bytes,
      activeOffset := off + bytes.length,
      activeSize := s.activeSize + bytes.length }
  | .evIndexSet k e => { s with index := idxSet s.index k e }
  | .evIndexDel k => { s with index := idxDelete s.index k }

/-- Apply a list of effects in order. -/
def applyEvs (s : EngineState) (evs : List Ev) : EngineState :=
  evs.foldl applyEv s

/-- The effect trace of `put` on an open instance, in the statement
order of the source: lines 171–173 (conditional rotation), line 196
(`fsWritev` at the current offset), lines 198–199 (counters), then
line 201 (`index.set`). -/
def putEvents (s : EngineState) (r : Rec) : List Ev :=
  let totalLen := HEADER_SIZE + r.key.length + r.val.length
  let rotated := s.activeSize + totalLen > s.segmentMaxBytes
  let fid := if rotated then s.activeId + 1 else s.activeId
  let off := if rotated then 0 else s.activeOffset
  (if rotated then [Ev.evRotate (s.activeId + 1)] else []) ++
    [Ev.evAppend fid off (encodePut r),
     Ev.evIndexSet r.key ⟨fid, off, totalLen, r.updatedAt, r.expiresAt, r.metadata⟩]

/-- Every index entry points at a fully-written byte range of an
existing segment file: the visibility-only-after-durability invariant. -/
def IndexInBounds (s : EngineState) : Prop :=
  ∀ k e, idxGet s.index k = some e →
    e.offset + e.size ≤ ((diskGet s.disk e.fileId).getD []).length

/-! ## Refinement artifacts for recovery correctness -/

/-- Location-relevant projection of an index entry: segment id, byte
offset and record size. -/
def projLoc (e : Entry) : Nat × Nat × Nat := (e.fileId, e.offset, e.size)

/-- Two indexes agree when they contain the same keys and their entries
agree on the record locations. -/
def AgreeLoc (i₁ i₂ : Index) : Prop :=
  ∀ k, (idxGet i₁ k).map projLoc = (idxGet i₂ k).map projLoc

/-- The logical segment contents of a reachable state: segment `i + 1`
holds exactly the encoded records of `m.get i`. -/
def segFiles (m : List (List DRec)) : List (Nat × List Nat) :=
  (List.range m.length).map (fun i => (i + 1, concatD (m.getD i [])))

/-- Semantic replay of all segments in order, starting from segment 1. -/
def foldIdxAux (idx : Index) (segId : Nat) : List (List DRec) → Index
  | [] => idx
  | seg :: rest => foldIdxAux (scanSemFrom segId 0 idx seg) (segId + 1) rest

/-- Semantic replay of a whole directory from the empty index. -/
def foldIdx (m : List (List DRec)) : Index :=
  foldIdxAux [] 1 m

/-- Validity of all records of all segments. -/
def ValidSegs (m : List (List DRec)) : Prop :=
  ∀ seg ∈ m, ∀ d ∈ seg, ValidD d

/-- Abstraction invariant tying a reachable open engine state to its
logical segment contents: `pre` lists the closed segments in id order
(segment `i + 1` holds `pre.getD i`), `cur` is the active segment
`pre.length + 1`. -/
def Inv (s : EngineState) (pre : List (List DRec)) (cur : List DRec) :
    Prop :=
  s.opened = true ∧ s.activeId = pre.length + 1 ∧
    s.disk = segFiles (pre ++ [cur]) ∧ ValidSegs (pre ++ [cur]) ∧
    s.activeOffset = (concatD cur).length ∧
    s.activeSize = s.activeOffset ∧
    AgreeLoc s.index (foldIdx (pre ++ [cur]))

/-- One write-path operation, as issued by a client. -/
inductive Op where
  | put (r : Rec)
  | del (k : Key) (now : Nat)
deriving DecidableEq, Repr

/-- Bounds every client operation satisfies (enforced by the `Buffer`
writers, see `ValidD`). -/
def ValidOp : Op → Prop
  | .put r => ValidD (.data r)
  | .del k _ => k.length < 2 ^ 16

/-- Run one operation on the engine. -/
def stepOp (s : EngineState) : Op → EngineState
  | .put r => putOp s r
  | .del k now => deleteOp s k now

/-- Run a sequence of operations on the engine. -/
def runOps (s : EngineState) (ops : List Op) : EngineState :=
  ops.foldl stepOp s

/-- A freshly opened instance over an empty directory. -/
def freshOpened (max : Nat) : EngineState :=
  ensureOpened (initState max [])

/-- A fresh instance constructed over an existing directory, opened
(this is what "close and reopen" or a process restart does). -/
def reopenFresh (max : Nat) (disk : List (Nat × List Nat)) : EngineState :=
  ensureOpened (initState max disk)

/-- Reference index of the operation sequence itself: the most recent
`put` record per key, with `delete` removing the key. -/
def specIndex (ops : List Op) : List (Key × Rec) :=
  ops.foldl
    (fun m op =>
      match op with
      | .put r => (if m.any (fun p => p.1 == r.key) then
          m.map (fun p => if p.1 == r.key then (r.key, r) else p)
        else m ++ [(r.key, r)])
      | .del k _ => m.filter (fun p => ¬ p.1 == k))
    []

/-- Lookup in the reference index. -/
def specGet (ops : List Op) (k : Key) : Option Rec :=
  ((specIndex ops).find? (fun p => p.1 == k)).map (·.2)

/-! ## Page collection for pagination -/

/-- Repeatedly call `list` with the returned cursors, concatenating the
pages, with a fuel bound on the number of pages. -/
def collectPages (s : EngineState) (p : Key) (lim : Int) (now : Nat) :
    Nat → Option CursorStr → List KVListKeyM
  | 0, _ => []
  | fuel + 1, cur =>
    let r := (listOp s ⟨some p, some lim, cur⟩ now).2
    r.keys ++
      match r.cursor with
      | some c => collectPages s p lim now fuel (some c)
      | none => []

/-! ## Concrete sample data for witnesses and counterexamples -/

/-- Sample record: key `"k"`, value `"1"`, written at t = 5000 ms. -/
def rA : Rec := ⟨[107], [49], .text, 5000, none, none⟩

/-- Sample record: key `"k"`, value `"2"`, written at t = 6000 ms. -/
def rB : Rec := ⟨[107], [50], .text, 6000, none, none⟩

/-- Sample record: key `"b"`, value `"3"`, written at t = 7000 ms. -/
def rC : Rec := ⟨[98], [51], .text, 7000, none, none⟩

/-- Sample record with the reserved epoch-0 expiry: key `"z"`. -/
def rZ : Rec := ⟨[122], [48], .text, 5000, some 0, none⟩

/-- Sample record with a nonzero expiry already in the past: key `"e"`. -/
def rE : Rec := ⟨[101], [48], .text, 300, some 400, none⟩

/-! ## Basic byte-level lemmas -/

theorem length_encodeHeader (f k v t e : Nat) :
    (encodeHeader f k v t e).length = HEADER_SIZE := rfl

theorem length_encodePut (r : Rec) :
    (encodePut r).length = HEADER_SIZE + r.key.length + r.val.length := by
  simp [encodePut, encodeHeader, writeUInt16LE, writeUInt32LE, writeUInt64LE,
    HEADER_SIZE]
  omega

theorem length_encodeTomb (k : Key) (now : Nat) :
    (encodeTomb k now).length = HEADER_SIZE + k.length := by
  simp [encodeTomb, encodeHeader, writeUInt16LE, writeUInt32LE, writeUInt64LE,
    HEADER_SIZE]
  omega

theorem length_encodeD (d : DRec) : (encodeD d).length = sizeD d := by
  cases d with
  | data r => simpa [encodeD, sizeD] using length_encodePut r
  | tomb k now => simpa [encodeD, sizeD] using length_encodeTomb k now

theorem headerSize_le_sizeD (d : DRec) : HEADER_SIZE ≤ sizeD d := by
  cases d <;> simp [sizeD] <;> omega

theorem byteAt_shift (P X : List Nat) (i : Nat) :
    byteAt (P ++ X) (P.length + i) = byteAt X i := by
  unfold byteAt
  rw [P.getD_append_right X 0 _ (Nat.le_add_right _ _), Nat.add_sub_cancel_left]

theorem read16_shift (P X : List Nat) (i : Nat) :
    readUInt16LE (P ++ X) (P.length + i) = readUInt16LE X i := by
  unfold readUInt16LE
  rw [byteAt_shift, Nat.add_assoc, byteAt_shift]

theorem read32_shift (P X : List Nat) (i : Nat) :
    readUInt32LE (P ++ X) (P.length + i) = readUInt32LE X i := by
  unfold readUInt32LE
  rw [byteAt_shift, Nat.add_assoc _ i 1, byteAt_shift, Nat.add_assoc _ i 2,
    byteAt_shift, Nat.add_assoc _ i 3, byteAt_shift]

theorem read64_shift (P X : List Nat) (i : Nat) :
    readUInt64LE (P ++ X) (P.length + i) = readUInt64LE X i := by
  unfold readUInt64LE
  rw [read32_shift, Nat.add_assoc _ i 4, read32_shift]

theorem slice_shift (P X : List Nat) (p n : Nat) :
    sliceBytes (P ++ X) (P.length + p) n = sliceBytes X p n := by
  unfold sliceBytes
  rw [List.drop_append]

/-! Reads of the fixed header fields from the start of an encoded
header followed by anything. -/

theorem read16_at_write16 (n : Nat) (rest : List Nat) :
    readUInt16LE (writeUInt16LE n ++ rest) 0 = n % 2 ^ 16 := by
  simp only [writeUInt16LE, List.cons_append, List.nil_append]
  simp only [readUInt16LE, byteAt, List.getD_cons_zero, List.getD_cons_succ]
  omega

theorem read32_at_write32 (n : Nat) (rest : List Nat) :
    readUInt32LE (writeUInt32LE n ++ rest) 0 = n % 2 ^ 32 := by
  simp only [writeUInt32LE, List.cons_append, List.nil_append]
  simp only [readUInt32LE, byteAt, List.getD_cons_zero, List.getD_cons_succ]
  omega

theorem read64_at_write64 (n : Nat) (rest : List Nat) :
    readUInt64LE (writeUInt64LE n ++ rest) 0 = n % 2 ^ 64 := by
  simp only [writeUInt64LE, List.cons_append, List.nil_append]
  simp only [readUInt64LE, readUInt32LE, byteAt, List.getD_cons_zero,
    List.getD_cons_succ]
  omega

theorem read_magic_header (f k v t e : Nat) (tail : List Nat) :
    readUInt32LE (encodeHeader f k v t e ++ tail) 0 = MAGIC := by
  have h : encodeHeader f k v t e ++ tail =
      writeUInt32LE MAGIC ++ ([VERSION % 256, f % 256] ++ (writeUInt16LE k ++
        (writeUInt32LE v ++ (writeUInt32LE t ++ (writeUInt64LE e ++ tail))))) := by
    simp [encodeHeader, List.append_assoc]
  rw [h, read32_at_write32]
  norm_num [MAGIC]

theorem byteAt_flags_header (f k v t e : Nat) (tail : List Nat) :
    byteAt (encodeHeader f k v t e ++ tail) 5 = f % 256 := by
  have h : encodeHeader f k v t e ++ tail =
      (writeUInt32LE MAGIC ++ [VERSION % 256]) ++ ((f % 256) :: (writeUInt16LE k ++
        (writeUInt32LE v ++ (writeUInt32LE t ++ (writeUInt64LE e ++ tail))))) := by
    simp [encodeHeader, writeUInt32LE, List.append_assoc]
  have h5 : (5 : Nat) = (writeUInt32LE MAGIC ++ [VERSION % 256]).length + 0 := rfl
  rw [h, h5, byteAt_shift]
  rfl

theorem read_keyLen_header (f k v t e : Nat) (tail : List Nat) :
    readUInt16LE (encodeHeader f k v t e ++ tail) 6 = k % 2 ^ 16 := by
  have h : encodeHeader f k v t e ++ tail =
      (writeUInt32LE MAGIC ++ [VERSION % 256, f % 256]) ++ (writeUInt16LE k ++
        (writeUInt32LE v ++ (writeUInt32LE t ++ (writeUInt64LE e ++ tail)))) := by
    simp [encodeHeader, List.append_assoc]
  have h6 : (6 : Nat) =
      (writeUInt32LE MAGIC ++ [VERSION % 256, f % 256]).length + 0 := rfl
  rw [h, h6, read16_shift, read16_at_write16]

theorem read_valLen_header (f k v t e : Nat) (tail : List Nat) :
    readUInt32LE (encodeHeader f k v t e ++ tail) 8 = v % 2 ^ 32 := by
  have h : encodeHeader f k v t e ++ tail =
      (writeUInt32LE MAGIC ++ [VERSION % 256, f % 256] ++ writeUInt16LE k) ++
        (writeUInt32LE v ++ (writeUInt32LE t ++ (writeUInt64LE e ++ tail))) := by
    simp [encodeHeader, List.append_assoc]
  have h8 : (8 : Nat) =
      (writeUInt32LE MAGIC ++ [VERSION % 256, f % 256] ++ writeUInt16LE k).length
        + 0 := rfl
  rw [h, h8, read32_shift, read32_at_write32]

theorem read_ts_header (f k v t e : Nat) (tail : List Nat) :
    readUInt32LE (encodeHeader f k v t e ++ tail) 12 = t % 2 ^ 32 := by
  have h : encodeHeader f k v t e ++ tail =
      (writeUInt32LE MAGIC ++ [VERSION % 256, f % 256] ++ writeUInt16LE k ++
        writeUInt32LE v) ++ (writeUInt32LE t ++ (writeUInt64LE e ++ tail)) := by
    simp [encodeHeader, List.append_assoc]
  have h12 : (12 : Nat) =
      (writeUInt32LE MAGIC ++ [VERSION % 256, f % 256] ++ writeUInt16LE k ++
        writeUInt32LE v).length + 0 := rfl
  rw [h, h12, read32_shift, read32_at_write32]

theorem read_exp_header (f k v t e : Nat) (tail : List Nat) :
    readUInt64LE (encodeHeader f k v t e ++ tail) 16 = e % 2 ^ 64 := by
  have h : encodeHeader f k v t e ++ tail =
      (writeUInt32LE MAGIC ++ [VERSION % 256, f % 256] ++ writeUInt16LE k ++
        writeUInt32LE v ++ writeUInt32LE t) ++ (writeUInt64LE e ++ tail) := by
    simp [encodeHeader, List.append_assoc]
  have h16 : (16 : Nat) =
      (writeUInt32LE MAGIC ++ [VERSION % 256, f % 256] ++ writeUInt16LE k ++
        writeUInt32LE v ++ writeUInt32LE t).length + 0 := rfl
  rw [h, h16, read64_shift, read64_at_write64]

theorem slice_key_header (f k v t e : Nat) (key tail : List Nat) :
    sliceBytes (encodeHeader f k v t e ++ (key ++ tail)) HEADER_SIZE key.length
      = key := by
  have h : HEADER_SIZE = (encodeHeader f k v t e).length + 0 := rfl
  rw [h, slice_shift]
  unfold sliceBytes
  simpa using List.take_left key tail

/-! ## Binary64 encoding lemmas -/

theorem doubleBitsOfNat_zero : doubleBitsOfNat 0 = 0 := rfl

theorem doubleBits_decomp (x : Nat) (h0 : x ≠ 0) (h53 : x < 2 ^ 53) :
    ∃ m, Nat.log2 x ≤ 52 ∧ m < 2 ^ 52 ∧
      doubleBitsOfNat x = (Nat.log2 x + 1023) * 2 ^ 52 + m := by
  have hle : 2 ^ Nat.log2 x ≤ x := Nat.log2_self_le h0
  have hlt : x < 2 ^ (Nat.log2 x + 1) := Nat.lt_log2_self
  have he : Nat.log2 x ≤ 52 := by
    by_contra hc
    have : 2 ^ 53 ≤ 2 ^ Nat.log2 x := Nat.pow_le_pow_right (by omega) (by omega)
    omega
  refine ⟨x * 2 ^ (52 - Nat.log2 x) - 2 ^ 52, he, ?_, ?_⟩
  · have hp : 0 < 2 ^ (52 - Nat.log2 x) := Nat.pos_pow_of_pos _ (by omega)
    have h1 : x * 2 ^ (52 - Nat.log2 x) < 2 ^ (Nat.log2 x + 1) * 2 ^ (52 - Nat.log2 x) :=
      (Nat.mul_lt_mul_right hp).mpr hlt
    have h2 : 2 ^ (Nat.log2 x + 1) * 2 ^ (52 - Nat.log2 x) = 2 ^ 53 := by
      rw [← pow_add]
      congr 1
      omega
    omega
  · unfold doubleBitsOfNat
    rw [if_neg h0]
    simp only [if_pos he]

theorem doubleBitsOfNat_lt (x : Nat) (h53 : x < 2 ^ 53) :
    doubleBitsOfNat x < 2 ^ 63 := by
  by_cases h0 : x = 0
  · subst h0
    norm_num [doubleBitsOfNat_zero]
  · obtain ⟨m, he, hm, hb⟩ := doubleBits_decomp x h0 h53
    rw [hb]
    have : (Nat.log2 x + 1023) * 2 ^ 52 ≤ 1075 * 2 ^ 52 :=
      Nat.mul_le_mul_right _ (by omega)
    omega

theorem recExpBits_doubleBits (x : Nat) (h53 : x < 2 ^ 53) :
    recExpBits (doubleBitsOfNat x % 2 ^ 64) =
      if x = 0 then none else some (doubleBitsOfNat x) := by
  by_cases h0 : x = 0
  · subst h0
    simp [doubleBitsOfNat_zero, recExpBits, jsFalsyBits]
  · obtain ⟨m, he, hm, hb⟩ := doubleBits_decomp x h0 h53
    have hlt : doubleBitsOfNat x < 2 ^ 63 := doubleBitsOfNat_lt x h53
    have hmod : doubleBitsOfNat x % 2 ^ 64 = doubleBitsOfNat x :=
      Nat.mod_eq_of_lt (by omega)
    rw [hmod, if_neg h0]
    have hdiv : doubleBitsOfNat x / 2 ^ 52 % 2 ^ 11 = Nat.log2 x + 1023 := by
      rw [hb, mul_comm, Nat.mul_add_div (by norm_num), Nat.div_eq_of_lt hm,
        Nat.add_zero]
      exact Nat.mod_eq_of_lt (by omega)
    have b0 : doubleBitsOfNat x ≠ 0 := by
      rw [hb]
      omega
    have b63 : doubleBitsOfNat x ≠ 2 ^ 63 := by
      omega
    have bexp : Nat.log2 x + 1023 ≠ 2047 := by
      omega
    have hfalsy : jsFalsyBits (doubleBitsOfNat x) = false := by
      unfold jsFalsyBits
      have e1 : (doubleBitsOfNat x == 0) = false := by
        simp [b0]
      have e2 : (doubleBitsOfNat x == 2 ^ 63) = false := by
        simp
        omega
      have e3 : (doubleBitsOfNat x / 2 ^ 52 % 2 ^ 11 == 2047) = false := by
        rw [hdiv]
        simp
        omega
      rw [e1, e2, e3]
      rfl
    unfold recExpBits
    rw [hfalsy]
    simp

/-! ## Scanner stepping lemmas -/

theorem enc_tag_lt (e : Enc) : e.tag * 2 < 256 := by
  cases e <;> simp [Enc.tag]

/-- At a record boundary, one iteration of the scan loop parses exactly
the record that was appended there and advances past it. -/
theorem scanGo_step (segId : Nat) (P rest : List Nat) (d : DRec)
    (hd : ValidD d) (fuel : Nat) (idx : Index) :
    scanGo segId (P ++ (encodeD d ++ rest)) (fuel + 1) P.length idx =
      scanGo segId (P ++ (encodeD d ++ rest)) fuel (P.length + sizeD d)
        (applyD segId P.length idx d) := by
  cases d with
  | data r =>
    obtain ⟨hk, hv, hx⟩ := hd
    have hX : encodeD (.data r) ++ rest =
        encodeHeader (r.enc.tag * 2) r.key.length r.val.length
          (r.updatedAt % 2 ^ 32) (doubleBitsOfNat (r.expiresAt.getD 0)) ++
          (r.key ++ (r.val ++ rest)) := by
      simp [encodeD, encodePut, List.append_assoc]
    have hflen : (P ++ (encodeD (.data r) ++ rest)).length =
        P.length + (sizeD (.data r) + rest.length) := by
      simp [length_encodeD]
    have h1 : P.length + HEADER_SIZE ≤ (P ++ (encodeD (.data r) ++ rest)).length := by
      rw [hflen]
      have := headerSize_le_sizeD (.data r)
      omega
    have hmg : readUInt32LE (P ++ (encodeD (.data r) ++ rest)) P.length = MAGIC := by
      have h0 := read32_shift P (encodeD (.data r) ++ rest) 0
      rw [Nat.add_zero] at h0
      rw [h0, hX, read_magic_header]
    have hflags : byteAt (P ++ (encodeD (.data r) ++ rest)) (P.length + 5) =
        r.enc.tag * 2 := by
      rw [byteAt_shift, hX, byteAt_flags_header]
      exact Nat.mod_eq_of_lt (enc_tag_lt r.enc)
    have hkl : readUInt16LE (P ++ (encodeD (.data r) ++ rest)) (P.length + 6) =
        r.key.length := by
      rw [read16_shift, hX, read_keyLen_header]
      exact Nat.mod_eq_of_lt hk
    have hvl : readUInt32LE (P ++ (encodeD (.data r) ++ rest)) (P.length + 8) =
        r.val.length := by
      rw [read32_shift, hX, read_valLen_header]
      exact Nat.mod_eq_of_lt hv
    have hts : readUInt32LE (P ++ (encodeD (.data r) ++ rest)) (P.length + 12) =
        r.updatedAt % 2 ^ 32 := by
      rw [read32_shift, hX, read_ts_header]
      omega
    have hxp : readUInt64LE (P ++ (encodeD (.data r) ++ rest)) (P.length + 16) =
        doubleBitsOfNat (r.expiresAt.getD 0) := by
      rw [read64_shift, hX, read_exp_header]
      exact Nat.mod_eq_of_lt (lt_trans (doubleBitsOfNat_lt _ hx) (by norm_num))
    have hkey : sliceBytes (P ++ (encodeD (.data r) ++ rest))
        (P.length + HEADER_SIZE) r.key.length = r.key := by
      rw [slice_shift, hX]
      exact slice_key_header _ _ _ _ _ _ _
    have htot : P.length + (HEADER_SIZE + r.key.length + r.val.length) ≤
        (P ++ (encodeD (.data r) ++ rest)).length := by
      rw [hflen]
      simp [sizeD]
    simp only [scanGo]
    rw [if_pos h1, hmg, if_pos rfl, hflags, hkl, hvl, hts, hxp, hkey]
    rw [if_pos htot]
    rw [if_neg (by omega : ¬ (r.enc.tag * 2) % 2 = 1)]
    simp [applyD, sizeD]
  | tomb k now =>
    have hk : k.length < 2 ^ 16 := hd
    have hX : encodeD (.tomb k now) ++ rest =
        encodeHeader FLAG_TOMBSTONE k.length 0 (now % 2 ^ 32) 0 ++ (k ++ rest) := by
      simp [encodeD, encodeTomb, List.append_assoc]
    have hflen : (P ++ (encodeD (.tomb k now) ++ rest)).length =
        P.length + (sizeD (.tomb k now) + rest.length) := by
      simp [length_encodeD]
    have h1 : P.length + HEADER_SIZE ≤
        (P ++ (encodeD (.tomb k now) ++ rest)).length := by
      rw [hflen]
      have := headerSize_le_sizeD (.tomb k now)
      omega
    have hmg : readUInt32LE (P ++ (encodeD (.tomb k now) ++ rest)) P.length =
        MAGIC := by
      have h0 := read32_shift P (encodeD (.tomb k now) ++ rest) 0
      rw [Nat.add_zero] at h0
      rw [h0, hX, read_magic_header]
    have hflags : byteAt (P ++ (encodeD (.tomb k now) ++ rest)) (P.length + 5) =
        FLAG_TOMBSTONE := by
      rw [byteAt_shift, hX, byteAt_flags_header]
      norm_num [FLAG_TOMBSTONE]
    have hkl : readUInt16LE (P ++ (encodeD (.tomb k now) ++ rest)) (P.length + 6) =
        k.length := by
      rw [read16_shift, hX, read_keyLen_header]
      exact Nat.mod_eq_of_lt hk
    have hvl : readUInt32LE (P ++ (encodeD (.tomb k now) ++ rest)) (P.length + 8) =
        0 := by
      rw [read32_shift, hX, read_valLen_header]
      norm_num
    have hkey : sliceBytes (P ++ (encodeD (.tomb k now) ++ rest))
        (P.length + HEADER_SIZE) k.length = k := by
      rw [slice_shift, hX]
      exact slice_key_header _ _ _ _ _ _ _
    have htot : P.length + (HEADER_SIZE + k.length + 0) ≤
        (P ++ (encodeD (.tomb k now) ++ rest)).length := by
      rw [hflen]
      simp [sizeD]
    simp only [scanGo]
    rw [if_pos h1, hmg, if_pos rfl, hflags, hkl, hvl, hkey]
    rw [if_pos htot]
    rw [if_pos (by norm_num [FLAG_TOMBSTONE])]
    simp [applyD, sizeD]

/-- The scan stops, leaving the index unchanged, when the bytes at the
current position fail the first header parse: too short for a header, a
magic mismatch, or a declared length past the end of the file. -/
def FailsParse (g : List Nat) : Prop :=
  g.length < HEADER_SIZE ∨ readUInt32LE g 0 ≠ MAGIC ∨
    g.length < HEADER_SIZE + readUInt16LE g 6 + readUInt32LE g 8

theorem scanGo_stop (segId : Nat) (P g : List Nat) (hg : FailsParse g)
    (fuel : Nat) (idx : Index) :
    scanGo segId (P ++ g) fuel P.length idx = idx := by
  cases fuel with
  | zero => rfl
  | succ fuel =>
    have hflen : (P ++ g).length = P.length + g.length := by
      simp
    simp only [scanGo]
    rcases hg with h | h | h
    · rw [if_neg (by omega)]
    · have hmg : readUInt32LE (P ++ g) P.length ≠ MAGIC := by
        have h0 := read32_shift P g 0
        rw [Nat.add_zero] at h0
        rw [h0]
        exact h
      by_cases hshort : P.length + HEADER_SIZE ≤ (P ++ g).length
      · rw [if_pos hshort, if_neg hmg]
      · rw [if_neg hshort]
    · by_cases hshort : P.length + HEADER_SIZE ≤ (P ++ g).length
      · have hkl : readUInt16LE (P ++ g) (P.length + 6) = readUInt16LE g 6 :=
          read16_shift P g 6
        have hvl : readUInt32LE (P ++ g) (P.length + 8) = readUInt32LE g 8 :=
          read32_shift P g 8
        rw [if_pos hshort]
        by_cases hmg : readUInt32LE (P ++ g) P.length = MAGIC
        · rw [hmg, if_pos rfl, hkl, hvl]
          rw [if_neg (by omega)]
        · rw [if_neg hmg]
      · rw [if_neg hshort]

theorem sizeD_pos (d : DRec) : 0 < sizeD d := by
  cases d <;> simp [sizeD, HEADER_SIZE]

theorem length_le_concatD (ds : List DRec) : ds.length ≤ (concatD ds).length := by
  induction ds with
  | nil => simp [concatD]
  | cons d ds ih =>
    have h1 : (concatD (d :: ds)).length = (encodeD d).length + (concatD ds).length := by
      simp [concatD]
    have h2 : 0 < (encodeD d).length := by
      rw [length_encodeD]
      exact sizeD_pos d
    simp only [List.length_cons]
    omega

/-- Scanning a run of complete valid records followed by an unparsable
tail replays exactly those records, whatever the fuel (provided it
covers the record count) and whatever the surrounding file prefix. -/
theorem scanGo_main (segId : Nat) (ds : List DRec) (P g : List Nat)
    (hds : ∀ d ∈ ds, ValidD d) (hg : FailsParse g) (fuel : Nat)
    (hfuel : ds.length ≤ fuel) (idx : Index) :
    scanGo segId (P ++ (concatD ds ++ g)) fuel P.length idx =
      scanSemFrom segId P.length idx ds := by
  induction ds generalizing P fuel idx with
  | nil =>
    have h : concatD ([] : List DRec) ++ g = g := by
      simp [concatD]
    rw [h, scanGo_stop segId P g hg fuel idx]
    rfl
  | cons d ds ih =>
    cases fuel with
    | zero => simp at hfuel
    | succ fuel =>
      have hvd : ValidD d := hds d (by simp)
      have hre : concatD (d :: ds) ++ g = encodeD d ++ (concatD ds ++ g) := by
        simp [concatD]
      rw [hre, scanGo_step segId P (concatD ds ++ g) d hvd fuel idx]
      have hP' : P.length + sizeD d = (P ++ encodeD d).length := by
        simp [length_encodeD]
      have hf : P ++ (encodeD d ++ (concatD ds ++ g)) =
          (P ++ encodeD d) ++ (concatD ds ++ g) := by
        simp
      rw [hP', hf, ih (P ++ encodeD d) (fun x hx => hds x (by simp [hx])) fuel
        (by simp at hfuel; omega) (applyD segId P.length idx d)]
      show scanSemFrom segId (P ++ encodeD d).length _ ds = _
      rw [← hP']
      rfl

theorem failsParse_nil : FailsParse [] := by
  exact Or.inl (by simp [HEADER_SIZE])

/-- Replaying a fully valid segment file. -/
theorem recoverSegment_concatD (idx : Index) (segId : Nat) (ds : List DRec)
    (hds : ∀ d ∈ ds, ValidD d) :
    recoverSegment idx segId (concatD ds) = scanSemFrom segId 0 idx ds := by
  have h : concatD ds = [] ++ (concatD ds ++ []) := by
    simp
  unfold recoverSegment
  conv_lhs => rw [h]
  have := scanGo_main segId ds [] [] hds failsParse_nil ((concatD ds).length + 1)
    (by have := length_le_concatD ds; omega) idx
  simpa using this

/-- Replaying a valid segment file with an unparsable tail. -/
theorem recoverSegment_tail (idx : Index) (segId : Nat) (ds : List DRec)
    (hds : ∀ d ∈ ds, ValidD d) (g : List Nat) (hg : FailsParse g) :
    recoverSegment idx segId (concatD ds ++ g) = scanSemFrom segId 0 idx ds := by
  have h : concatD ds ++ g = [] ++ (concatD ds ++ g) := by
    simp
  unfold recoverSegment
  conv_lhs => rw [h]
  have := scanGo_main segId ds [] g hds hg ((concatD ds ++ g).length + 1)
    (by have := length_le_concatD ds; simp; omega) idx
  simpa using this

theorem byteAt_take (l : List Nat) (j i : Nat) (h : i < j) :
    byteAt (l.take j) i = byteAt l i := by
  unfold byteAt
  rcases Nat.lt_or_ge i l.length with hl | hl
  · rw [List.getD_eq_getElem?_getD, List.getD_eq_getElem?_getD,
      List.getElem?_take_of_lt h]
  · rw [List.getD_eq_getElem?_getD, List.getD_eq_getElem?_getD]
    rw [List.getElem?_eq_none (by simp; omega), List.getElem?_eq_none (by omega)]

/-- A proper nonempty prefix of a single record append — the bytes a
crash mid-append can leave behind — always fails the header parse. -/
theorem failsParse_take (d : DRec) (hd : ValidD d) (j : Nat) (hj : j < sizeD d) :
    FailsParse ((encodeD d).take j) := by
  have hlen : ((encodeD d).take j).length = j := by
    rw [List.length_take, length_encodeD]
    omega
  rcases Nat.lt_or_ge j HEADER_SIZE with h24 | h24
  · exact Or.inl (by omega)
  · refine Or.inr (Or.inr ?_)
    rw [hlen]
    have h16 : readUInt16LE ((encodeD d).take j) 6 = readUInt16LE (encodeD d) 6 := by
      unfold readUInt16LE
      rw [byteAt_take _ _ _ (by unfold HEADER_SIZE at h24; omega),
        byteAt_take _ _ _ (by unfold HEADER_SIZE at h24; omega)]
    have h32 : readUInt32LE ((encodeD d).take j) 8 = readUInt32LE (encodeD d) 8 := by
      unfold readUInt32LE
      rw [byteAt_take _ _ _ (by unfold HEADER_SIZE at h24; omega),
        byteAt_take _ _ _ (by unfold HEADER_SIZE at h24; omega),
        byteAt_take _ _ _ (by unfold HEADER_SIZE at h24; omega),
        byteAt_take _ _ _ (by unfold HEADER_SIZE at h24; omega)]
    rw [h16, h32]
    cases d with
    | data r =>
      obtain ⟨hk, hv, hx⟩ := hd
      have e1 : readUInt16LE (encodeD (.data r)) 6 = r.key.length := by
        have h := read_keyLen_header (r.enc.tag * 2) r.key.length r.val.length
          (r.updatedAt % 2 ^ 32) (doubleBitsOfNat (r.expiresAt.getD 0))
          (r.key ++ r.val)
        have hX : encodeD (.data r) =
            encodeHeader (r.enc.tag * 2) r.key.length r.val.length
              (r.updatedAt % 2 ^ 32) (doubleBitsOfNat (r.expiresAt.getD 0)) ++
              (r.key ++ r.val) := by
          simp [encodeD, encodePut, List.append_assoc]
        rw [hX, h]
        exact Nat.mod_eq_of_lt hk
      have e2 : readUInt32LE (encodeD (.data r)) 8 = r.val.length := by
        have h := read_valLen_header (r.enc.tag * 2) r.key.length r.val.length
          (r.updatedAt % 2 ^ 32) (doubleBitsOfNat (r.expiresAt.getD 0))
          (r.key ++ r.val)
        have hX : encodeD (.data r) =
            encodeHeader (r.enc.tag * 2) r.key.length r.val.length
              (r.updatedAt % 2 ^ 32) (doubleBitsOfNat (r.expiresAt.getD 0)) ++
              (r.key ++ r.val) := by
          simp [encodeD, encodePut, List.append_assoc]
        rw [hX, h]
        exact Nat.mod_eq_of_lt hv
      rw [e1, e2]
      simp only [sizeD] at hj
      omega
    | tomb k now =>
      have hk : k.length < 2 ^ 16 := hd
      have hX : encodeD (.tomb k now) =
          encodeHeader FLAG_TOMBSTONE k.length 0 (now % 2 ^ 32) 0 ++ (k ++ []) := by
        simp [encodeD, encodeTomb]
      have e1 : readUInt16LE (encodeD (.tomb k now)) 6 = k.length := by
        rw [hX, read_keyLen_header]
        exact Nat.mod_eq_of_lt hk
      have e2 : readUInt32LE (encodeD (.tomb k now)) 8 = 0 := by
        rw [hX, read_valLen_header]
        norm_num
      rw [e1, e2]
      simp only [sizeD] at hj
      omega

/-! ## Index (`Map`) lemmas -/

theorem find?_map_set (i : Index) (k : Key) (e : Entry)
    (h : i.any (fun p => p.1 == k) = true) :
    (i.map (fun p => if p.1 == k then (k, e) else p)).find? (fun p => p.1 == k)
      = some (k, e) := by
  induction i with
  | nil => simp at h
  | cons p i ih =>
    by_cases hp' : p.1 = k
    · simp only [List.map_cons, List.find?]
      simp [hp']
    · have hpb : (p.1 == k) = false := by simpa using hp'
      simp only [List.any_cons, Bool.or_eq_true] at h
      have h' : (i.any fun p => p.1 == k) = true := by
        rcases h with h | h
        · exact absurd (by simpa using h) hp'
        · exact h
      simp only [List.map_cons, List.find?, hpb, Bool.false_eq_true, if_false]
      exact ih h'

theorem find?_map_set_ne (i : Index) (k k' : Key) (e : Entry) (hk : k' ≠ k) :
    (i.map (fun p => if p.1 == k then (k, e) else p)).find? (fun p => p.1 == k')
      = i.find? (fun p => p.1 == k') := by
  induction i with
  | nil => simp
  | cons p i ih =>
    by_cases hp' : p.1 = k
    · have h1 : ((k, e).1 == k') = false := by
        simp
        exact fun h => hk h.symm
      have h2 : (p.1 == k') = false := by
        simp [hp']
        exact fun h => hk h.symm
      have hh : (if p.1 == k then (k, e) else p) = (k, e) := if_pos (by simp [hp'])
      simp only [List.map_cons, hh, List.find?, h1, h2, Bool.false_eq_true]
      exact ih
    · have hpb : (p.1 == k) = false := by simpa using hp'
      simp only [List.map_cons, List.find?, hpb, Bool.false_eq_true, if_false]
      by_cases hq : (p.1 == k') = true
      · simp only [hq]
      · simp only [show (p.1 == k') = false from by simpa using hq]
        exact ih

theorem find?_none_of_any_false (i : Index) (k : Key)
    (h : i.any (fun p => p.1 == k) = false) :
    i.find? (fun p => p.1 == k) = none := by
  induction i with
  | nil => simp
  | cons p i ih =>
    simp only [List.any_cons, Bool.or_eq_false_iff] at h
    simp only [List.find?, h.1]
    exact ih h.2

/-- Full characterisation of `Map.set` through `Map.get`. -/
theorem idxGet_idxSet (i : Index) (k : Key) (e : Entry) (k' : Key) :
    idxGet (idxSet i k e) k' = if k' = k then some e else idxGet i k' := by
  unfold idxSet idxGet
  by_cases h : i.any (fun p => p.1 == k) = true
  · rw [if_pos h]
    by_cases hk : k' = k
    · subst hk
      rw [find?_map_set i k' e h, if_pos rfl]
      rfl
    · rw [find?_map_set_ne i k k' e hk, if_neg hk]
  · rw [if_neg h]
    rw [List.find?_append]
    by_cases hk : k' = k
    · subst hk
      rw [find?_none_of_any_false i k' (eq_false_of_ne_true h)]
      simp
    · have h2 : ((k, e).1 == k') = false := by
        simp
        exact fun a => hk a.symm
      simp [List.find?, h2, hk]

/-- Full characterisation of `Map.delete` through `Map.get`. -/
theorem idxGet_idxDelete (i : Index) (k k' : Key) :
    idxGet (idxDelete i k) k' = if k' = k then none else idxGet i k' := by
  unfold idxDelete idxGet
  induction i with
  | nil => simp
  | cons p i ih =>
    by_cases hp' : p.1 = k
    · rw [List.filter_cons_of_neg (by simp [hp'])]
      rw [ih]
      by_cases hk : k' = k
      · rw [if_pos hk, if_pos hk]
      · rw [if_neg hk, if_neg hk]
        have hq : (p.1 == k') = false := by
          simp [hp']
          exact fun a => hk a.symm
        simp only [List.find?, hq, Bool.false_eq_true]
    · rw [List.filter_cons_of_pos (by simpa using hp')]
      by_cases hq : (p.1 == k') = true
      · have hq' : p.1 = k' := by simpa using hq
        have hne : ¬ k' = k := by
          intro hc
          rw [hc] at hq'
          exact hp' hq'
        simp only [List.find?, hq, if_neg hne]
      · simp only [List.find?, show (p.1 == k') = false from by simpa using hq]
        exact ih

/-! ## Claim C1 — crash-truncation tolerance of recovery -/

/-- C1, counterexample to the claim as stated: the claim quantifies over
*arbitrary* trailing bytes, but trailing garbage that happens to itself
be a complete well-formed record (here: the full append of a record for
a second key) is parsed by the scanner, so the rebuilt index differs
from the one built from the N complete records alone. -/
theorem C1_counterexample :
    recoverSegment [] 1 (concatD [DRec.data rA] ++ encodeD (DRec.data rC)) ≠
      recoverSegment [] 1 (concatD [DRec.data rA]) := by
  decide

/-- C1 (amended): for a segment holding N complete valid records
followed by trailing bytes on which the very first header parse fails —
a short header, a bad magic, or a declared record length extending past
the file's end, which is in particular the case for every proper
nonempty prefix of a single record append left by a crash — the
recovery scan stops at the last valid record boundary, rebuilds an index
identical to the one built from the N records alone, and (recovery
being a total function) surfaces no error. -/
theorem C1_recovery_truncation (segId : Nat) (ds : List DRec)
    (hds : ∀ d ∈ ds, ValidD d) (g : List Nat) (hg : FailsParse g)
    (idx : Index) :
    recoverSegment idx segId (concatD ds ++ g) =
      recoverSegment idx segId (concatD ds) ∧
    (∀ (d : DRec) (j : Nat), ValidD d → 0 < j → j < sizeD d →
      recoverSegment idx segId (concatD ds ++ (encodeD d).take j) =
        recoverSegment idx segId (concatD ds)) := by
  constructor
  · rw [recoverSegment_tail idx segId ds hds g hg,
      recoverSegment_concatD idx segId ds hds]
  · intro d j hd hj0 hj
    rw [recoverSegment_tail idx segId ds hds _ (failsParse_take d hd j hj),
      recoverSegment_concatD idx segId ds hds]

/-- C1, witness: the amended theorem applied to one concrete record
followed by a one-byte tail, and to a 10-byte crash prefix of a second
record's append. -/
theorem C1_recovery_truncation_witness :
    recoverSegment [] 1 (concatD [DRec.data rA] ++ [255]) =
      recoverSegment [] 1 (concatD [DRec.data rA]) ∧
    recoverSegment [] 1 (concatD [DRec.data rA] ++ (encodeD (DRec.data rC)).take 10) =
      recoverSegment [] 1 (concatD [DRec.data rA]) := by
  have hA : ∀ d ∈ [DRec.data rA], ValidD d := by
    intro d hd
    rw [List.mem_singleton] at hd
    subst hd
    exact ⟨by decide, by decide, by decide⟩
  have hg : FailsParse [255] := Or.inl (by decide)
  refine ⟨(C1_recovery_truncation 1 [DRec.data rA] hA [255] hg []).1,
    (C1_recovery_truncation 1 [DRec.data rA] hA [255] hg []).2
      (DRec.data rC) 10 ⟨by decide, by decide, by decide⟩ (by decide) (by decide)⟩

/-! ## Directory lemmas -/

theorem ensureOpened_opened (s : EngineState) (h : s.opened = true) :
    ensureOpened s = s := by
  unfold ensureOpened
  rw [if_pos h]

theorem diskGet_none_find? (d : List (Nat × List Nat)) (id : Nat)
    (h : diskGet d id = none) : d.find? (fun e => e.1 == id) = none := by
  unfold diskGet at h
  cases hf : d.find? (fun e => e.1 == id) with
  | none => rfl
  | some v =>
    rw [hf] at h
    simp at h

theorem diskGet_append_ne (d : List (Nat × List Nat)) (n : Nat) (f : List Nat)
    (id : Nat) (h : id ≠ n) :
    diskGet (d ++ [(n, f)]) id = diskGet d id := by
  unfold diskGet
  rw [List.find?_append]
  cases hf : d.find? (fun e => e.1 == id) with
  | some v => simp
  | none =>
    have hn : ((n, f).1 == id) = false := by
      simp
      exact fun a => h a.symm
    simp only [Option.none_or, List.find?, hn, Bool.false_eq_true]

theorem diskGet_append_self (d : List (Nat × List Nat)) (n : Nat) (f : List Nat)
    (h : diskGet d n = none) :
    diskGet (d ++ [(n, f)]) n = some f := by
  unfold diskGet
  rw [List.find?_append, diskGet_none_find? d n h]
  have hn : ((n, f).1 == n) = true := by simp
  simp only [Option.none_or, List.find?, hn]
  rfl

theorem diskGet_diskAppend_self (d : List (Nat × List Nat)) (id : Nat)
    (bytes f : List Nat) (h : diskGet d id = some f) :
    diskGet (diskAppend d id bytes) id = some (f ++ bytes) := by
  unfold diskGet diskAppend
  unfold diskGet at h
  induction d with
  | nil => simp at h
  | cons p d ih =>
    by_cases hp : (p.1 == id) = true
    · have h2 : p.2 = f := by
        simp only [List.find?, hp] at h
        simpa using h
      simp only [List.map_cons, if_pos hp, List.find?]
      simp [hp, h2]
    · have hpb : (p.1 == id) = false := eq_false_of_ne_true hp
      have h2 : Option.map (fun x => x.2) (d.find? (fun e => e.1 == id)) = some f := by
        simp only [List.find?, hpb, Bool.false_eq_true] at h
        exact h
      simp only [List.map_cons, if_neg hp, List.find?, hpb, Bool.false_eq_true,
        if_false]
      exact ih h2

theorem diskGet_diskAppend_ne (d : List (Nat × List Nat)) (id id' : Nat)
    (bytes : List Nat) (h : id' ≠ id) :
    diskGet (diskAppend d id bytes) id' = diskGet d id' := by
  unfold diskGet diskAppend
  induction d with
  | nil => simp
  | cons p d ih =>
    by_cases hp : (p.1 == id) = true
    · have hp' : p.1 = id := by simpa using hp
      have hq : (p.1 == id') = false := by
        simp [hp']
        exact fun a => h a.symm
      simp only [List.map_cons, if_pos hp, List.find?, hq, Bool.false_eq_true]
      exact ih
    · have hpb : (p.1 == id) = false := eq_false_of_ne_true hp
      simp only [List.map_cons, if_neg hp, List.find?]
      by_cases hq : (p.1 == id') = true
      · simp only [hq]
      · simp only [eq_false_of_ne_true hq, Bool.false_eq_true]
        exact ih

/-! ## Characterisations of the engine operations on an open state -/

theorem rotate_eq (s : EngineState)
    (hfresh : diskGet s.disk (s.activeId + 1) = none) :
    rotate s =
      { s with
        activeFd := some (s.activeId + 1), activeId := s.activeId + 1,
        activeSize := 0, activeOffset := 0,
        disk := s.disk ++ [(s.activeId + 1, [])] } := by
  unfold rotate openActiveForAppend
  simp [hfresh]

/-- `put` under rotation: the record would overflow the active segment,
so a fresh segment `activeId + 1` is created and the record becomes its
entire content, indexed at offset 0. -/
theorem putOp_rotate_eq (s : EngineState) (r : Rec) (hop : s.opened = true)
    (hfresh : diskGet s.disk (s.activeId + 1) = none)
    (hgt : s.activeSize + (HEADER_SIZE + r.key.length + r.val.length) >
      s.segmentMaxBytes) :
    putOp s r =
      { s with
        activeFd := some (s.activeId + 1), activeId := s.activeId + 1,
        activeSize := HEADER_SIZE + r.key.length + r.val.length,
        activeOffset := HEADER_SIZE + r.key.length + r.val.length,
        index := idxSet s.index r.key
          ⟨s.activeId + 1, 0, HEADER_SIZE + r.key.length + r.val.length,
            r.updatedAt, r.expiresAt, r.metadata⟩,
        disk := diskAppend (s.disk ++ [(s.activeId + 1, [])]) (s.activeId + 1)
          (encodePut r) } := by
  simp only [putOp]
  rw [ensureOpened_opened s hop, if_pos hgt, rotate_eq s hfresh]
  simp

/-- `put` without rotation: the record is appended to the current active
segment at the current offset. -/
theorem putOp_norotate_eq (s : EngineState) (r : Rec) (hop : s.opened = true)
    (hle : ¬ s.activeSize + (HEADER_SIZE + r.key.length + r.val.length) >
      s.segmentMaxBytes) :
    putOp s r =
      { s with
        disk := diskAppend s.disk s.activeId (encodePut r),
        activeOffset := s.activeOffset + (HEADER_SIZE + r.key.length + r.val.length),
        activeSize := s.activeSize + (HEADER_SIZE + r.key.length + r.val.length),
        index := idxSet s.index r.key
          ⟨s.activeId, s.activeOffset,
            HEADER_SIZE + r.key.length + r.val.length,
            r.updatedAt, r.expiresAt, r.metadata⟩ } := by
  simp only [putOp]
  rw [ensureOpened_opened s hop, if_neg hle]

/-- `delete` of a present key under rotation. -/
theorem deleteOp_rotate_eq (s : EngineState) (k : Key) (now : Nat)
    (e : Entry) (hop : s.opened = true) (hsome : idxGet s.index k = some e)
    (hfresh : diskGet s.disk (s.activeId + 1) = none)
    (hgt : s.activeSize + (HEADER_SIZE + k.length) > s.segmentMaxBytes) :
    deleteOp s k now =
      { s with
        activeFd := some (s.activeId + 1), activeId := s.activeId + 1,
        activeSize := HEADER_SIZE + k.length,
        activeOffset := HEADER_SIZE + k.length,
        index := idxDelete s.index k,
        disk := diskAppend (s.disk ++ [(s.activeId + 1, [])]) (s.activeId + 1)
          (encodeTomb k now) } := by
  simp only [deleteOp]
  rw [ensureOpened_opened s hop, hsome, if_pos hgt, rotate_eq s hfresh]
  simp

/-- `delete` of a present key without rotation. -/
theorem deleteOp_norotate_eq (s : EngineState) (k : Key) (now : Nat)
    (e : Entry) (hop : s.opened = true) (hsome : idxGet s.index k = some e)
    (hle : ¬ s.activeSize + (HEADER_SIZE + k.length) > s.segmentMaxBytes) :
    deleteOp s k now =
      { s with
        disk := diskAppend s.disk s.activeId (encodeTomb k now),
        activeOffset := s.activeOffset + (HEADER_SIZE + k.length),
        activeSize := s.activeSize + (HEADER_SIZE + k.length),
        index := idxDelete s.index k } := by
  simp only [deleteOp]
  rw [ensureOpened_opened s hop, hsome, if_neg hle]

/-! ## Claim C9 — deleting an absent key is a no-op -/

/-- C9: when the key has no index entry, `delete` returns before any
size computation: the whole state — index, counters, active segment and
every file of the directory — is unchanged, no tombstone is appended
and no rotation happens, and no error is raised (the operation is
total). -/
theorem C9_delete_absent_noop (s : EngineState) (k : Key) (now : Nat)
    (hop : s.opened = true) (habs : idxGet s.index k = none) :
    deleteOp s k now = s := by
  simp only [deleteOp]
  rw [ensureOpened_opened s hop, habs]

/-- C9, witness: deleting a key from a freshly opened empty store. -/
theorem C9_delete_absent_noop_witness :
    deleteOp (freshOpened 64) [107] 99 = freshOpened 64 :=
  C9_delete_absent_noop (freshOpened 64) [107] 99 (by decide) (by decide)

/-! ## Claim C4 — rotation policy -/

/-- C4: before appending, both `put` and `delete` compare the active
segment's size plus the record's total encoded size against the maximum
(strict `>`); on overflow they rotate first — the new active segment has
id `activeId + 1` and receives the whole record at offset 0, the old
segment untouched — and otherwise the whole record goes to the current
active segment at the current offset.  Either way the record's bytes are
one contiguous slice of a single segment file, never split, and the
default maximum is 32 MiB. -/
theorem C4_rotation_policy (s : EngineState) (r : Rec) (k : Key) (now : Nat)
    (e : Entry) (f : List Nat)
    (hop : s.opened = true)
    (hf : diskGet s.disk s.activeId = some f)
    (hsync : s.activeOffset = f.length)
    (hfresh : diskGet s.disk (s.activeId + 1) = none)
    (hkey : idxGet s.index k = some e) :
    (s.activeSize + (HEADER_SIZE + r.key.length + r.val.length) >
        s.segmentMaxBytes →
      (putOp s r).activeId = s.activeId + 1 ∧
      diskGet (putOp s r).disk (s.activeId + 1) = some (encodePut r) ∧
      diskGet (putOp s r).disk s.activeId = some f ∧
      idxGet (putOp s r).index r.key =
        some ⟨s.activeId + 1, 0, HEADER_SIZE + r.key.length + r.val.length,
          r.updatedAt, r.expiresAt, r.metadata⟩) ∧
    (s.activeSize + (HEADER_SIZE + r.key.length + r.val.length) ≤
        s.segmentMaxBytes →
      (putOp s r).activeId = s.activeId ∧
      diskGet (putOp s r).disk s.activeId = some (f ++ encodePut r) ∧
      sliceBytes (f ++ encodePut r) s.activeOffset (encodePut r).length =
        encodePut r ∧
      idxGet (putOp s r).index r.key =
        some ⟨s.activeId, s.activeOffset,
          HEADER_SIZE + r.key.length + r.val.length,
          r.updatedAt, r.expiresAt, r.metadata⟩) ∧
    (s.activeSize + (HEADER_SIZE + k.length) > s.segmentMaxBytes →
      (deleteOp s k now).activeId = s.activeId + 1 ∧
      diskGet (deleteOp s k now).disk (s.activeId + 1) = some (encodeTomb k now) ∧
      diskGet (deleteOp s k now).disk s.activeId = some f) ∧
    (s.activeSize + (HEADER_SIZE + k.length) ≤ s.segmentMaxBytes →
      (deleteOp s k now).activeId = s.activeId ∧
      diskGet (deleteOp s k now).disk s.activeId = some (f ++ encodeTomb k now)) ∧
    defaultSegmentMaxBytes = 32 * 1024 * 1024 := by
  have hslice : ∀ bytes : List Nat,
      sliceBytes (f ++ bytes) s.activeOffset bytes.length = bytes := by
    intro bytes
    rw [hsync, show f.length = f.length + 0 from rfl, slice_shift]
    unfold sliceBytes
    simp
  refine ⟨?_, ?_, ?_, ?_, rfl⟩
  · intro hgt
    rw [putOp_rotate_eq s r hop hfresh hgt]
    refine ⟨rfl, ?_, ?_, ?_⟩
    · have h0 : diskGet (s.disk ++ [(s.activeId + 1, [])]) (s.activeId + 1) =
          some [] := diskGet_append_self _ _ _ hfresh
      have h1 := diskGet_diskAppend_self _ _ (encodePut r) _ h0
      simpa using h1
    · have h1 := diskGet_diskAppend_ne (s.disk ++ [(s.activeId + 1, [])])
        (s.activeId + 1) s.activeId (encodePut r) (by omega)
      rw [show ({ s with
          activeFd := some (s.activeId + 1), activeId := s.activeId + 1,
          activeSize := HEADER_SIZE + r.key.length + r.val.length,
          activeOffset := HEADER_SIZE + r.key.length + r.val.length,
          index := idxSet s.index r.key
            ⟨s.activeId + 1, 0, HEADER_SIZE + r.key.length + r.val.length,
              r.updatedAt, r.expiresAt, r.metadata⟩,
          disk := diskAppend (s.disk ++ [(s.activeId + 1, [])]) (s.activeId + 1)
            (encodePut r) } : EngineState).disk =
          diskAppend (s.disk ++ [(s.activeId + 1, [])]) (s.activeId + 1)
            (encodePut r) from rfl, h1,
        diskGet_append_ne s.disk (s.activeId + 1) [] s.activeId (by omega)]
      exact hf
    · rw [show ({ s with
          activeFd := some (s.activeId + 1), activeId := s.activeId + 1,
          activeSize := HEADER_SIZE + r.key.length + r.val.length,
          activeOffset := HEADER_SIZE + r.key.length + r.val.length,
          index := idxSet s.index r.key
            ⟨s.activeId + 1, 0, HEADER_SIZE + r.key.length + r.val.length,
              r.updatedAt, r.expiresAt, r.metadata⟩,
          disk := diskAppend (s.disk ++ [(s.activeId + 1, [])]) (s.activeId + 1)
            (encodePut r) } : EngineState).index =
          idxSet s.index r.key
            ⟨s.activeId + 1, 0, HEADER_SIZE + r.key.length + r.val.length,
              r.updatedAt, r.expiresAt, r.metadata⟩ from rfl,
        idxGet_idxSet, if_pos rfl]
  · intro hle
    rw [putOp_norotate_eq s r hop (by omega)]
    refine ⟨rfl, ?_, ?_, ?_⟩
    · exact diskGet_diskAppend_self _ _ _ _ hf
    · rw [show (encodePut r).length =
          HEADER_SIZE + r.key.length + r.val.length from by
            simpa [sizeD] using length_encodeD (.data r)] at *
      have := hslice (encodePut r)
      rw [show (encodePut r).length =
          HEADER_SIZE + r.key.length + r.val.length from by
            simpa [sizeD] using length_encodeD (.data r)] at this
      exact this
    · rw [show ({ s with
          disk := diskAppend s.disk s.activeId (encodePut r),
          activeOffset := s.activeOffset +
            (HEADER_SIZE + r.key.length + r.val.length),
          activeSize := s.activeSize +
            (HEADER_SIZE + r.key.length + r.val.length),
          index := idxSet s.index r.key
            ⟨s.activeId, s.activeOffset,
              HEADER_SIZE + r.key.length + r.val.length,
              r.updatedAt, r.expiresAt, r.metadata⟩ } : EngineState).index =
          idxSet s.index r.key
            ⟨s.activeId, s.activeOffset,
              HEADER_SIZE + r.key.length + r.val.length,
              r.updatedAt, r.expiresAt, r.metadata⟩ from rfl,
        idxGet_idxSet, if_pos rfl]
  · intro hgt
    rw [deleteOp_rotate_eq s k now e hop hkey hfresh hgt]
    refine ⟨rfl, ?_, ?_⟩
    · have h0 : diskGet (s.disk ++ [(s.activeId + 1, [])]) (s.activeId + 1) =
          some [] := diskGet_append_self _ _ _ hfresh
      have h1 := diskGet_diskAppend_self _ _ (encodeTomb k now) _ h0
      simpa using h1
    · have h1 := diskGet_diskAppend_ne (s.disk ++ [(s.activeId + 1, [])])
        (s.activeId + 1) s.activeId (encodeTomb k now) (by omega)
      rw [show ({ s with
          activeFd := some (s.activeId + 1), activeId := s.activeId + 1,
          activeSize := HEADER_SIZE + k.length,
          activeOffset := HEADER_SIZE + k.length,
          index := idxDelete s.index k,
          disk := diskAppend (s.disk ++ [(s.activeId + 1, [])]) (s.activeId + 1)
            (encodeTomb k now) } : EngineState).disk =
          diskAppend (s.disk ++ [(s.activeId + 1, [])]) (s.activeId + 1)
            (encodeTomb k now) from rfl, h1,
        diskGet_append_ne s.disk (s.activeId + 1) [] s.activeId (by omega)]
      exact hf
  · intro hle
    rw [deleteOp_norotate_eq s k now e hop hkey (by omega)]
    exact ⟨rfl, diskGet_diskAppend_self _ _ _ _ hf⟩

/-- C4, witness: a small store where a second put of a 26-byte record
overflows a 30-byte segment and rotates, while the first put did not. -/
theorem C4_rotation_policy_witness :
    (putOp (putOp (freshOpened 30) rA) rB).activeId = 2 ∧
    diskGet (putOp (putOp (freshOpened 30) rA) rB).disk 2 = some (encodePut rB) ∧
    (putOp (freshOpened 30) rA).activeId = 1 := by
  have h := C4_rotation_policy (putOp (freshOpened 30) rA) rB [107] 99
    ⟨1, 0, 26, 5000, none, none⟩ (encodePut rA)
    (by decide) (by decide) (by decide) (by decide) (by decide)
  have h1 := h.1 (by decide)
  exact ⟨h1.1, h1.2.1, by decide⟩

/-! ## Claim C6 — the 32-bit header timestamp field -/

/-- C6, counterexample to the claim as stated: `put` writes
`record.updatedAt >>> 0`, i.e. the record's epoch-millisecond timestamp
truncated to 32 bits, not a value in seconds.  For the concrete record
`rA` (updatedAt 5000 ms) the field at offset 12 holds 5000, not
`5000 / 1000 = 5` as the claim would require. -/
theorem C6_counterexample :
    readUInt32LE (encodePut rA) 12 ≠ rA.updatedAt / 1000 % 2 ^ 32 := by
  decide

/-- C6 (amended): for every record appended by `put`, the 4-byte
little-endian field at offset 12 of the 24-byte header contains the
record's `updatedAt` epoch-millisecond timestamp truncated to 32 bits
(and, read inside the segment file, that is what the field of the newly
appended record holds); for every tombstone appended by `delete` it
contains the current epoch-millisecond clock truncated to 32 bits. -/
theorem C6_timestamp_field (s : EngineState) (r : Rec) (k : Key) (now : Nat)
    (e : Entry) (f : List Nat)
    (hop : s.opened = true)
    (hf : diskGet s.disk s.activeId = some f)
    (hsync : s.activeOffset = f.length)
    (hkey : idxGet s.index k = some e)
    (hle1 : ¬ s.activeSize + (HEADER_SIZE + r.key.length + r.val.length) >
      s.segmentMaxBytes)
    (hle2 : ¬ s.activeSize + (HEADER_SIZE + k.length) > s.segmentMaxBytes) :
    diskGet (putOp s r).disk s.activeId = some (f ++ encodePut r) ∧
    readUInt32LE (f ++ encodePut r) (s.activeOffset + 12) =
      r.updatedAt % 2 ^ 32 ∧
    diskGet (deleteOp s k now).disk s.activeId = some (f ++ encodeTomb k now) ∧
    readUInt32LE (f ++ encodeTomb k now) (s.activeOffset + 12) =
      now % 2 ^ 32 := by
  have hput : readUInt32LE (encodePut r) 12 = r.updatedAt % 2 ^ 32 := by
    have hX : encodePut r =
        encodeHeader (r.enc.tag * 2) r.key.length r.val.length
          (r.updatedAt % 2 ^ 32) (doubleBitsOfNat (r.expiresAt.getD 0)) ++
          (r.key ++ r.val) := by
      simp [encodePut, List.append_assoc]
    rw [hX, read_ts_header]
    omega
  have htomb : readUInt32LE (encodeTomb k now) 12 = now % 2 ^ 32 := by
    have hX : encodeTomb k now =
        encodeHeader FLAG_TOMBSTONE k.length 0 (now % 2 ^ 32) 0 ++ (k ++ []) := by
      simp [encodeTomb]
    rw [hX, read_ts_header]
    omega
  refine ⟨?_, ?_, ?_, ?_⟩
  · rw [putOp_norotate_eq s r hop hle1]
    exact diskGet_diskAppend_self _ _ _ _ hf
  · rw [hsync, read32_shift, hput]
  · rw [deleteOp_norotate_eq s k now e hop hkey hle2]
    exact diskGet_diskAppend_self _ _ _ _ hf
  · rw [hsync, read32_shift, htomb]

/-- C6, witness: the amended theorem instantiated on a small store. -/
theorem C6_timestamp_field_witness :
    diskGet (putOp (putOp (freshOpened 100) rA) rB).disk 1 =
      some (encodePut rA ++ encodePut rB) ∧
    readUInt32LE (encodePut rA ++ encodePut rB) (26 + 12) = 6000 := by
  have h := C6_timestamp_field (putOp (freshOpened 100) rA) rB [107] 99
    ⟨1, 0, 26, 5000, none, none⟩ (encodePut rA)
    (by decide) (by decide) (by decide) (by decide) (by decide) (by decide)
  exact ⟨h.1, h.2.1⟩

/-! ## Claim C3 — durability precedes visibility in `put` -/

theorem diskGet_diskAppend_none (d : List (Nat × List Nat)) (id : Nat)
    (bytes : List Nat) (h : diskGet d id = none) :
    diskGet (diskAppend d id bytes) id = none := by
  unfold diskGet diskAppend
  unfold diskGet at h
  induction d with
  | nil => simp
  | cons p d ih =>
    by_cases hp : (p.1 == id) = true
    · simp only [List.find?, hp] at h
      simp at h
    · have hpb : (p.1 == id) = false := eq_false_of_ne_true hp
      simp only [List.find?, hpb, Bool.false_eq_true] at h
      simp only [List.map_cons, if_neg hp, List.find?, hpb, Bool.false_eq_true,
        if_false]
      exact ih h

/-- Appending bytes to any segment never shrinks any file of the
directory. -/
theorem diskLen_mono (d : List (Nat × List Nat)) (id : Nat) (bytes : List Nat)
    (id' : Nat) :
    ((diskGet d id').getD []).length ≤
      ((diskGet (diskAppend d id bytes) id').getD []).length := by
  by_cases hid : id' = id
  · subst hid
    cases hf : diskGet d id' with
    | none => rw [diskGet_diskAppend_none d id' bytes hf]
    | some f =>
      rw [diskGet_diskAppend_self d id' bytes f hf]
      simp
  · rw [diskGet_diskAppend_ne d id id' bytes hid]

theorem diskGet_append_of_some (d e : List (Nat × List Nat)) (id : Nat)
    (f : List Nat) (h : diskGet d id = some f) :
    diskGet (d ++ e) id = some f := by
  unfold diskGet at h ⊢
  rw [List.find?_append]
  cases hfind : List.find? (fun x => x.1 == id) d with
  | none =>
    rw [hfind] at h
    simp at h
  | some p =>
    rw [hfind] at h
    simp [hfind, h]

/-- Creating the fresh rotation segment never shrinks any file. -/
theorem diskLen_mono_append_entry (d : List (Nat × List Nat)) (n : Nat)
    (id' : Nat) :
    ((diskGet d id').getD []).length ≤
      ((diskGet (d ++ [(n, [])]) id').getD []).length := by
  by_cases hid : id' = n
  · subst hid
    cases hf : diskGet d id' with
    | none =>
      rw [diskGet_append_self d id' [] hf]
      simp
    | some f =>
      rw [diskGet_append_of_some d [(id', [])] id' f hf]
  · rw [diskGet_append_ne d n [] id' hid]

theorem inbounds_rotate (s : EngineState) (h : IndexInBounds s) :
    IndexInBounds (rotate s) := by
  intro k e he
  unfold rotate openActiveForAppend
  by_cases hex : (diskGet s.disk (s.activeId + 1)).isSome
  · simp only [if_pos hex]
    exact h k e he
  · simp only [if_neg hex]
    calc e.offset + e.size ≤ ((diskGet s.disk e.fileId).getD []).length :=
          h k e he
      _ ≤ _ := diskLen_mono_append_entry s.disk (s.activeId + 1) e.fileId

theorem inbounds_append_ev (s : EngineState) (fid off : Nat) (bytes : List Nat)
    (h : IndexInBounds s) :
    IndexInBounds (applyEv s (.evAppend fid off bytes)) := by
  intro k e he
  calc e.offset + e.size ≤ ((diskGet s.disk e.fileId).getD []).length :=
        h k e he
    _ ≤ _ := diskLen_mono s.disk fid bytes e.fileId

theorem inbounds_indexSet_ev (s : EngineState) (k : Key) (e : Entry)
    (h : IndexInBounds s)
    (he : e.offset + e.size ≤ ((diskGet s.disk e.fileId).getD []).length) :
    IndexInBounds (applyEv s (.evIndexSet k e)) := by
  intro k' e' he'
  dsimp only [applyEv] at he' ⊢
  rw [idxGet_idxSet] at he'
  by_cases hk : k' = k
  · rw [if_pos hk] at he'
    cases he'
    exact he
  · rw [if_neg hk] at he'
    exact h k' e' he'

/-- C3: on an open instance the effect trace of `put` is: possibly one
rotation, then the vectored append of the encoded record, then — as the
final effect, strictly after the append — the index update, whose entry
points exactly at the appended byte range.  Replaying the trace yields
exactly `put`'s result, and along every prefix of the trace every index
entry (the new one included, once it appears) refers only to byte ranges
already fully present in the segment files: at no point does the index
reference an append that has not completed. -/
theorem C3_durability_before_visibility (s : EngineState) (r : Rec)
    (f : List Nat)
    (hop : s.opened = true)
    (hfresh : diskGet s.disk (s.activeId + 1) = none)
    (hf : diskGet s.disk s.activeId = some f)
    (hsync : s.activeOffset = f.length)
    (hbound : IndexInBounds s) :
    ∃ pre fid off,
      putEvents s r = pre ++
        [Ev.evAppend fid off (encodePut r),
         Ev.evIndexSet r.key
           ⟨fid, off, HEADER_SIZE + r.key.length + r.val.length,
             r.updatedAt, r.expiresAt, r.metadata⟩] ∧
      (∀ ev ∈ pre, ev.isRotate = true) ∧
      applyEvs s (putEvents s r) = putOp s r ∧
      (∀ i, IndexInBounds (applyEvs s ((putEvents s r).take i))) := by
  have hlen : (encodePut r).length = HEADER_SIZE + r.key.length + r.val.length := by
    simpa [sizeD] using length_encodeD (.data r)
  by_cases hgt : s.activeSize + (HEADER_SIZE + r.key.length + r.val.length) >
      s.segmentMaxBytes
  · refine ⟨[Ev.evRotate (s.activeId + 1)], s.activeId + 1, 0, ?_, ?_, ?_, ?_⟩
    · simp [putEvents, hgt]
    · intro ev hev
      simp at hev
      subst hev
      rfl
    · have hev : putEvents s r =
          [Ev.evRotate (s.activeId + 1),
           Ev.evAppend (s.activeId + 1) 0 (encodePut r),
           Ev.evIndexSet r.key
             ⟨s.activeId + 1, 0, HEADER_SIZE + r.key.length + r.val.length,
               r.updatedAt, r.expiresAt, r.metadata⟩] := by
        simp [putEvents, hgt]
      rw [hev, putOp_rotate_eq s r hop hfresh hgt]
      simp only [applyEvs, List.foldl, applyEv]
      rw [rotate_eq s hfresh]
      simp [hlen]
    · intro i
      have hev : putEvents s r =
          [Ev.evRotate (s.activeId + 1),
           Ev.evAppend (s.activeId + 1) 0 (encodePut r),
           Ev.evIndexSet r.key
             ⟨s.activeId + 1, 0, HEADER_SIZE + r.key.length + r.val.length,
               r.updatedAt, r.expiresAt, r.metadata⟩] := by
        simp [putEvents, hgt]
      rw [hev]
      have hb1 : IndexInBounds (applyEvs s [Ev.evRotate (s.activeId + 1)]) := by
        simpa [applyEvs, applyEv] using inbounds_rotate s hbound
      have hb2 : IndexInBounds (applyEvs s
          [Ev.evRotate (s.activeId + 1),
           Ev.evAppend (s.activeId + 1) 0 (encodePut r)]) := by
        simpa [applyEvs, List.foldl] using
          inbounds_append_ev _ (s.activeId + 1) 0 (encodePut r) hb1
      have hb3 : IndexInBounds (applyEvs s
          [Ev.evRotate (s.activeId + 1),
           Ev.evAppend (s.activeId + 1) 0 (encodePut r),
           Ev.evIndexSet r.key
             ⟨s.activeId + 1, 0, HEADER_SIZE + r.key.length + r.val.length,
               r.updatedAt, r.expiresAt, r.metadata⟩]) := by
        have hmid : ((diskGet (applyEvs s
            [Ev.evRotate (s.activeId + 1),
             Ev.evAppend (s.activeId + 1) 0 (encodePut r)]).disk
              (s.activeId + 1)).getD []).length =
            HEADER_SIZE + r.key.length + r.val.length := by
          simp only [applyEvs, List.foldl, applyEv]
          rw [rotate_eq s hfresh]
          have h0 : diskGet (s.disk ++ [(s.activeId + 1, [])]) (s.activeId + 1) =
              some [] := diskGet_append_self _ _ _ hfresh
          rw [show ({ s with
              activeFd := some (s.activeId + 1), activeId := s.activeId + 1,
              activeSize := 0, activeOffset := 0,
              disk := s.disk ++ [(s.activeId + 1, [])] } : EngineState).disk =
              s.disk ++ [(s.activeId + 1, [])] from rfl]
          rw [diskGet_diskAppend_self _ _ _ _ h0]
          simpa using hlen
        apply inbounds_indexSet_ev _ _ _ hb2
        rw [hmid]
        simp
      match i with
      | 0 => simpa [applyEvs] using hbound
      | 1 => exact hb1
      | 2 => exact hb2
      | (n + 3) =>
        have : List.take (n + 3)
            [Ev.evRotate (s.activeId + 1),
             Ev.evAppend (s.activeId + 1) 0 (encodePut r),
             Ev.evIndexSet r.key
               ⟨s.activeId + 1, 0, HEADER_SIZE + r.key.length + r.val.length,
                 r.updatedAt, r.expiresAt, r.metadata⟩] =
            [Ev.evRotate (s.activeId + 1),
             Ev.evAppend (s.activeId + 1) 0 (encodePut r),
             Ev.evIndexSet r.key
               ⟨s.activeId + 1, 0, HEADER_SIZE + r.key.length + r.val.length,
                 r.updatedAt, r.expiresAt, r.metadata⟩] := by
          simp
        rw [this]
        exact hb3
  · refine ⟨[], s.activeId, s.activeOffset, ?_, ?_, ?_, ?_⟩
    · simp [putEvents, hgt]
    · intro ev hev
      simp at hev
    · have hev : putEvents s r =
          [Ev.evAppend s.activeId s.activeOffset (encodePut r),
           Ev.evIndexSet r.key
             ⟨s.activeId, s.activeOffset,
               HEADER_SIZE + r.key.length + r.val.length,
               r.updatedAt, r.expiresAt, r.metadata⟩] := by
        simp [putEvents, hgt]
      rw [hev, putOp_norotate_eq s r hop hgt]
      simp only [applyEvs, List.foldl, applyEv]
      simp [hlen, Nat.add_comm]
    · intro i
      have hev : putEvents s r =
          [Ev.evAppend s.activeId s.activeOffset (encodePut r),
           Ev.evIndexSet r.key
             ⟨s.activeId, s.activeOffset,
               HEADER_SIZE + r.key.length + r.val.length,
               r.updatedAt, r.expiresAt, r.metadata⟩] := by
        simp [putEvents, hgt]
      rw [hev]
      have hb1 : IndexInBounds (applyEvs s
          [Ev.evAppend s.activeId s.activeOffset (encodePut r)]) := by
        simpa [applyEvs, List.foldl] using
          inbounds_append_ev s s.activeId s.activeOffset (encodePut r) hbound
      have hb2 : IndexInBounds (applyEvs s
          [Ev.evAppend s.activeId s.activeOffset (encodePut r),
           Ev.evIndexSet r.key
             ⟨s.activeId, s.activeOffset,
               HEADER_SIZE + r.key.length + r.val.length,
               r.updatedAt, r.expiresAt, r.metadata⟩]) := by
        have hmid : ((diskGet (applyEvs s
            [Ev.evAppend s.activeId s.activeOffset (encodePut r)]).disk
              s.activeId).getD []).length =
            f.length + (HEADER_SIZE + r.key.length + r.val.length) := by
          simp only [applyEvs, List.foldl, applyEv]
          rw [diskGet_diskAppend_self _ _ _ _ hf]
          simp [hlen]
        apply inbounds_indexSet_ev _ _ _ hb1
        rw [hmid, hsync]
      match i with
      | 0 => simpa [applyEvs] using hbound
      | 1 => exact hb1
      | (n + 2) =>
        have : List.take (n + 2)
            [Ev.evAppend s.activeId s.activeOffset (encodePut r),
             Ev.evIndexSet r.key
               ⟨s.activeId, s.activeOffset,
                 HEADER_SIZE + r.key.length + r.val.length,
                 r.updatedAt, r.expiresAt, r.metadata⟩] =
            [Ev.evAppend s.activeId s.activeOffset (encodePut r),
             Ev.evIndexSet r.key
               ⟨s.activeId, s.activeOffset,
                 HEADER_SIZE + r.key.length + r.val.length,
                 r.updatedAt, r.expiresAt, r.metadata⟩] := by
          simp
        rw [this]
        exact hb2

/-- C3, witness: the trace of one concrete `put` on a small open store. -/
theorem C3_durability_before_visibility_witness :
    putEvents (freshOpened 100) rA =
      [Ev.evAppend 1 0 (encodePut rA),
       Ev.evIndexSet [107] ⟨1, 0, 26, 5000, none, none⟩] ∧
    applyEvs (freshOpened 100) (putEvents (freshOpened 100) rA) =
      putOp (freshOpened 100) rA := by
  have h := C3_durability_before_visibility (freshOpened 100) rA []
    (by decide) (by decide) (by decide) (by decide)
    (by
      intro k e he
      rw [show (freshOpened 100).index = [] from by decide] at he
      simp [idxGet] at he)
  obtain ⟨pre, fid, off, h1, h2, h3, h4⟩ := h
  exact ⟨by decide, h3⟩

/-! ## Claim C8 — lazy expiry on `get` and `list` -/

/-- A key whose entry is expired (in the JavaScript-truthy sense) is
never pushed by the collection loop. -/
theorem listLoop_not_mem_expired (lookup : Key → Option LEntry)
    (now limit : Nat) (k : Key)
    (hexp : ∀ e, lookup k = some e → isExpiredJS e.expiresAt now = true) :
    ∀ (keys : List Key) (acc : List KVListKeyM) (lastKey : Option Key),
      (∀ kk ∈ acc, kk.name ≠ k) →
      ∀ kk ∈ (listLoop lookup now limit keys acc lastKey).1, kk.name ≠ k := by
  intro keys
  induction keys with
  | nil =>
    intro acc lastKey hacc kk hkk
    simp only [listLoop] at hkk
    exact hacc kk hkk
  | cons k' rest ih =>
    intro acc lastKey hacc kk hkk
    simp only [listLoop] at hkk
    by_cases hfull : acc.length ≥ limit
    · rw [if_pos hfull] at hkk
      exact hacc kk hkk
    · rw [if_neg hfull] at hkk
      cases hlk : lookup k' with
      | none =>
        simp only [hlk] at hkk
        exact ih acc lastKey hacc kk hkk
      | some e =>
        simp only [hlk] at hkk
        by_cases hex : isExpiredJS e.expiresAt now = true
        · rw [if_pos hex] at hkk
          exact ih acc lastKey hacc kk hkk
        · rw [if_neg hex] at hkk
          refine ih (acc ++ [mkListKey k' e]) (some k') ?_ kk hkk
          intro kk' hkk'
          rcases List.mem_append.mp hkk' with hm | hm
          · exact hacc kk' hm
          · rw [List.mem_singleton] at hm
            subst hm
            show k' ≠ k
            intro hc
            subst hc
            rw [hlk] at hexp
            exact hex (hexp e rfl)

/-- C8, counterexample to the claim as stated: expiry epoch-ms 0 is the
reserved "no expiry" sentinel (it is JavaScript-falsy), so a record
whose stored expiry is 0 — which `put(k, v, {expirationTtl: 0})`
produces exactly when the clock reads 0 at write time — is at or before
any current time yet is still returned by `get` and still listed. -/
theorem C8_counterexample :
    computeExpiresAtMs (some ⟨some 0, none⟩) 0 = some 0 ∧
    (getOp (putOp (freshOpened 100) rZ) [122] 1000).2 ≠ none ∧
    ((listOp (putOp (freshOpened 100) rZ) ⟨none, none, none⟩ 1000).2.keys.map
      (fun kk => kk.name)).contains [122] = true := by
  decide

/-- C8 (amended): for a key whose index entry carries a *nonzero*
expiry timestamp at or before the current time, `get` returns absent
and the key appears in no `list` result; `expirationTtl: 0` produces
exactly the (nonzero, hence expiring) write-time timestamp whenever the
clock is past epoch 0. -/
theorem C8_lazy_expiry (s : EngineState) (k : Key) (x now : Nat) (e : Entry)
    (hop : s.opened = true)
    (he : idxGet s.index k = some e)
    (hx : e.expiresAt = some x) (hx0 : x ≠ 0) (hle : x ≤ now) :
    (getOp s k now).2 = none ∧
    (∀ o : ListOptionsM, ∀ kk ∈ (listOp s o now).2.keys, kk.name ≠ k) ∧
    (∀ t : Nat, 0 < t →
      computeExpiresAtMs (some ⟨some 0, none⟩) t = some (t : Int) ∧
        (t : Int) ≠ 0) := by
  have hexpired : isExpiredJS e.expiresAt now = true := by
    rw [hx]
    simp [isExpiredJS, hx0, hle]
  refine ⟨?_, ?_, ?_⟩
  · simp only [getOp]
    rw [ensureOpened_opened s hop]
    simp only [he]
    rw [if_pos hexpired]
  · intro o kk hkk
    simp only [listOp, listCore] at hkk
    rw [ensureOpened_opened s hop] at hkk
    have hlk : ∀ e', idxLookup s.index k = some e' →
        isExpiredJS e'.expiresAt now = true := by
      intro e' he'
      unfold idxLookup at he'
      rw [he] at he'
      simp at he'
      rw [← he']
      exact hexpired
    set keys1 := sortKeys ((s.index.map (·.1)).filter
      (fun kk => startsWithB (o.pfx.getD []) kk)) with hkeys1
    revert hkk
    cases hres : listLoop (idxLookup s.index) now
        ((min (max 1 (o.limit.getD 1000)) 10000).toNat)
        (match
          match o.cursor with
          | none => none
          | some cs =>
            match decodeCursor cs with
            | some d => if d.pfx = o.pfx.getD [] then d.after else none
            | none => none with
        | none => keys1
        | some a => sliceAfter keys1 a) [] none with
    | mk resultKeys rest =>
      cases rest with
      | mk lastKey listComplete =>
        intro hkk
        have hmem : kk ∈ resultKeys := by
          by_cases hc : listComplete = true
          · subst hc
            simpa using hkk
          · rw [eq_false_of_ne_true hc] at hkk
            cases lastKey with
            | none => simpa using hkk
            | some lk => simpa using hkk
        have hall := listLoop_not_mem_expired (idxLookup s.index) now
          ((min (max 1 (o.limit.getD 1000)) 10000).toNat) k hlk
          (match
            match o.cursor with
            | none => none
            | some cs =>
              match decodeCursor cs with
              | some d => if d.pfx = o.pfx.getD [] then d.after else none
              | none => none with
          | none => keys1
          | some a => sliceAfter keys1 a) [] none
          (by intro kk' h'; simp at h')
        rw [hres] at hall
        exact hall kk hmem
  · intro t ht
    refine ⟨?_, ?_⟩
    · simp [computeExpiresAtMs]
    · omega

/-- C8, witness: a record with expiry 400 ms read at time 1000 ms. -/
theorem C8_lazy_expiry_witness :
    (getOp (putOp (freshOpened 100) rE) [101] 1000).2 = none ∧
    (∀ kk ∈ (listOp (putOp (freshOpened 100) rE)
      ⟨none, none, none⟩ 1000).2.keys, kk.name ≠ [101]) := by
  have h := C8_lazy_expiry (putOp (freshOpened 100) rE) [101] 400 1000
    ⟨1, 0, 26, 300, some 400, none⟩
    (by decide) (by decide) (by decide) (by decide) (by decide)
  exact ⟨h.1, h.2.1 ⟨none, none, none⟩⟩

/-! ## Claim C10 — the effective page limit -/

/-- The collection loop never grows the page beyond the limit. -/
theorem listLoop_length (lookup : Key → Option LEntry) (now limit : Nat) :
    ∀ (keys : List Key) (acc : List KVListKeyM) (lastKey : Option Key),
      acc.length ≤ limit →
      (listLoop lookup now limit keys acc lastKey).1.length ≤ limit := by
  intro keys
  induction keys with
  | nil =>
    intro acc lastKey hacc
    simpa [listLoop] using hacc
  | cons k' rest ih =>
    intro acc lastKey hacc
    simp only [listLoop]
    by_cases hfull : acc.length ≥ limit
    · rw [if_pos hfull]
      exact hacc
    · rw [if_neg hfull]
      cases hlk : lookup k' with
      | none => exact ih acc lastKey hacc
      | some e =>
        show (if isExpiredJS e.expiresAt now = true then
            listLoop lookup now limit rest acc lastKey
          else listLoop lookup now limit rest
            (acc ++ [mkListKey k' e]) (some k')).1.length ≤ limit
        by_cases hex : isExpiredJS e.expiresAt now = true
        · rw [if_pos hex]
          exact ih acc lastKey hacc
        · rw [if_neg hex]
          refine ih (acc ++ [mkListKey k' e]) (some k') ?_
          simp
          omega

/-- The page produced by the shared `list` body respects the clamped
limit. -/
theorem listCore_length_le (lookup : Key → Option LEntry) (allKeys : List Key)
    (o : ListOptionsM) (now : Nat) :
    (listCore lookup allKeys o now).keys.length ≤ effLimit o.limit := by
  simp only [listCore, effLimit]
  cases hres : listLoop lookup now
      ((min (max 1 (o.limit.getD 1000)) 10000).toNat)
      (match
        match o.cursor with
        | none => none
        | some cs =>
          match decodeCursor cs with
          | some d => if d.pfx = o.pfx.getD [] then d.after else none
          | none => none with
      | none => sortKeys (allKeys.filter (fun k => startsWithB (o.pfx.getD []) k))
      | some a => sliceAfter
          (sortKeys (allKeys.filter (fun k => startsWithB (o.pfx.getD []) k))) a)
      [] none with
  | mk resultKeys rest =>
    cases rest with
    | mk lastKey listComplete =>
      have hlen : resultKeys.length ≤
          (min (max 1 (o.limit.getD 1000)) 10000).toNat := by
        have h := listLoop_length lookup now
          ((min (max 1 (o.limit.getD 1000)) 10000).toNat)
          (match
            match o.cursor with
            | none => none
            | some cs =>
              match decodeCursor cs with
              | some d => if d.pfx = o.pfx.getD [] then d.after else none
              | none => none with
          | none => sortKeys (allKeys.filter (fun k => startsWithB (o.pfx.getD []) k))
          | some a => sliceAfter
              (sortKeys (allKeys.filter (fun k => startsWithB (o.pfx.getD []) k))) a)
          [] none (by simp)
        rw [hres] at h
        exact h
      by_cases hc : listComplete = true
      · subst hc
        exact hlen
      · rw [eq_false_of_ne_true hc]
        cases lastKey with
        | none => exact hlen
        | some lk => exact hlen

/-- Clamping is idempotent. -/
theorem effLimit_idem (l : Option Int) :
    effLimit (some ((effLimit l : Nat) : Int)) = effLimit l := by
  unfold effLimit
  have h1 : (1 : Int) ≤ min (max 1 (l.getD 1000)) 10000 :=
    le_min (le_max_left _ _) (by norm_num)
  have h3 : (((min (max 1 (l.getD 1000)) 10000).toNat : Int)) =
      min (max 1 (l.getD 1000)) 10000 :=
    Int.toNat_of_nonneg (by omega)
  rw [Option.getD_some, h3, max_eq_right h1,
    min_eq_left (min_le_right _ _)]

/-- C10: both the log-structured backend's `list` and the in-memory
backend's `list` clamp the requested limit to
`min(max(1, limit ?? 1000), 10000)`: a page never holds more than the
clamped limit (hence never more than 10000 keys), an omitted limit
defaults to 1000, a limit of 0 or less behaves as 1, a limit already in
`[1, 10000]` is used as is, and replacing the requested limit by its
clamped value leaves both results unchanged. -/
theorem C10_effective_limit (s : EngineState) (st : MemState)
    (o : ListOptionsM) (now : Nat) (hop : s.opened = true) :
    (listOp s o now).2.keys.length ≤ effLimit o.limit ∧
    (memList st o now).keys.length ≤ effLimit o.limit ∧
    effLimit o.limit ≤ 10000 ∧
    (o.limit = none → effLimit o.limit = 1000) ∧
    (∀ l : Int, l ≤ 0 → effLimit (some l) = 1) ∧
    (∀ l : Int, 1 ≤ l → l ≤ 10000 → effLimit (some l) = l.toNat) ∧
    (listOp s o now).2 =
      listCore (idxLookup s.index) (s.index.map (·.1))
        { o with limit := some ((effLimit o.limit : Nat) : Int) } now ∧
    memList st { o with limit := some ((effLimit o.limit : Nat) : Int) } now =
      memList st o now := by
  have hsubst : ∀ (lookup : Key → Option LEntry) (allKeys : List Key),
      listCore lookup allKeys
        { o with limit := some ((effLimit o.limit : Nat) : Int) } now =
      listCore lookup allKeys o now := by
    intro lookup allKeys
    unfold listCore
    rw [show ({ o with limit := some ((effLimit o.limit : Nat) : Int) }
        : ListOptionsM).pfx = o.pfx from rfl,
      show ({ o with limit := some ((effLimit o.limit : Nat) : Int) }
        : ListOptionsM).cursor = o.cursor from rfl,
      show (min (max 1 (({ o with
          limit := some ((effLimit o.limit : Nat) : Int) }
            : ListOptionsM).limit.getD 1000)) 10000).toNat =
        effLimit (some ((effLimit o.limit : Nat) : Int)) from rfl,
      effLimit_idem o.limit]
    rfl
  refine ⟨?_, ?_, ?_, ?_, ?_, ?_, ?_, ?_⟩
  · simp only [listOp]
    rw [ensureOpened_opened s hop]
    exact listCore_length_le _ _ o now
  · exact listCore_length_le _ _ o now
  · unfold effLimit
    have h2 : min (max 1 (o.limit.getD 1000)) 10000 ≤ 10000 := min_le_right _ _
    omega
  · intro h
    rw [h]
    rfl
  · intro l hl
    unfold effLimit
    rw [Option.getD_some, max_eq_left (by omega), min_eq_left (by norm_num)]
    rfl
  · intro l h1 h10
    unfold effLimit
    rw [Option.getD_some, max_eq_right h1, min_eq_left h10]
  · simp only [listOp]
    rw [ensureOpened_opened s hop, hsubst]
  · unfold memList
    rw [hsubst]

/-- C10, witness: limits 0 and 30000 on a two-key store. -/
theorem C10_effective_limit_witness :
    (listOp (putOp (putOp (freshOpened 1000) rA) rC)
      ⟨none, some 0, none⟩ 50).2.keys.length ≤ effLimit (some 0) ∧
    effLimit (some 0) = 1 ∧ effLimit (some 30000) = 10000 ∧
    effLimit none = 1000 := by
  have h := C10_effective_limit (putOp (putOp (freshOpened 1000) rA) rC)
    ⟨[]⟩ ⟨none, some 0, none⟩ 50 (by decide)
  refine ⟨h.1, h.2.2.2.2.1 0 (by norm_num), ?_, by decide⟩
  have h2 := C10_effective_limit (putOp (putOp (freshOpened 1000) rA) rC)
    ⟨[]⟩ ⟨none, some 30000, none⟩ 50 (by decide)
  exact by decide

/-! ## Claim C7 — the instance state after `close` -/

theorem ensureOpened_opened_true (s : EngineState) :
    (ensureOpened s).opened = true := by
  by_cases h : s.opened = true
  · rw [ensureOpened_opened s h]
    exact h
  · simp only [ensureOpened, eq_false_of_ne_true h, Bool.false_eq_true,
      if_false]
    cases hseg : (sortSegs s.disk).getLast? with
    | none => rfl
    | some seg =>
      by_cases hsz : seg.2.length ≥ s.segmentMaxBytes
      · simp [hsz]
      · simp [hsz]

theorem rotate_index (s : EngineState) : (rotate s).index = s.index := rfl

theorem engine_set_opened_index (t : EngineState) (b : Bool) :
    ({ t with opened := b } : EngineState).index = t.index := rfl

/-- Re-opening a closed instance replays the directory's segments into
the instance's (retained) index. -/
theorem ensureOpened_index_of_closed (s : EngineState) (hcl : s.opened = false)
    (seg : Nat × List Nat) (hseg : (sortSegs s.disk).getLast? = some seg) :
    (ensureOpened s).index = recoverAll s.index (sortSegs s.disk) := by
  simp only [ensureOpened, hcl, Bool.false_eq_true, if_false, hseg]
  dsimp only [openActiveForAppend]
  by_cases hsz : seg.2.length ≥ s.segmentMaxBytes
  · rw [if_pos hsz, engine_set_opened_index, rotate_index]
  · rw [if_neg hsz, engine_set_opened_index]

/-- C7, counterexample to the claim as stated: after `close()` has
completed, a `get` on the very same instance is served again — it even
returns the record put before the close — and the instance is back in
the open state, because every operation begins with the lazy
`ensureOpened`. -/
theorem C7_counterexample :
    (getOp (closeOp (putOp (freshOpened 100) rA)) [107] 7000).2 ≠ none ∧
    (getOp (closeOp (putOp (freshOpened 100) rA)) [107] 7000).1.opened
      = true := by
  decide

/-- C7 (amended): `close()` moves the instance out of the open state and
releases the append handle while the directory's files persist; but the
instance can and does transition back: any subsequent operation runs
`ensureOpened`, which (the directory being nonempty) replays the
segments into the index again and serves the request — constructing a
fresh instance is not required. -/
theorem C7_close_lazy_reopen (s : EngineState) (k : Key) (now : Nat)
    (hop : s.opened = true) :
    (closeOp s).opened = false ∧
    (closeOp s).activeFd = none ∧
    (closeOp s).disk = s.disk ∧
    (closeOp s).index = s.index ∧
    (ensureOpened (closeOp s)).opened = true ∧
    getOp (closeOp s) k now = getOp (ensureOpened (closeOp s)) k now ∧
    (∀ seg : Nat × List Nat, (sortSegs s.disk).getLast? = some seg →
      (ensureOpened (closeOp s)).index = recoverAll s.index (sortSegs s.disk)) := by
  have hcl : closeOp s = { s with opened := false, activeFd := none } := by
    unfold closeOp
    rw [if_pos hop]
  refine ⟨by rw [hcl], by rw [hcl], by rw [hcl], by rw [hcl], ?_, ?_, ?_⟩
  · exact ensureOpened_opened_true _
  · show getOp (closeOp s) k now = getOp (ensureOpened (closeOp s)) k now
    have hid : ensureOpened (ensureOpened (closeOp s)) = ensureOpened (closeOp s) :=
      ensureOpened_opened _ (ensureOpened_opened_true _)
    simp only [getOp, hid]
  · intro seg hseg
    have h1 : (closeOp s).opened = false := by rw [hcl]
    have h2 : (closeOp s).disk = s.disk := by rw [hcl]
    have h3 : (closeOp s).index = s.index := by rw [hcl]
    rw [ensureOpened_index_of_closed (closeOp s) h1 seg (by rw [h2]; exact hseg),
      h2, h3]

/-- C7, witness: the amended theorem on a store holding one record,
plus its reopened `get` still serving that record's value. -/
theorem C7_close_lazy_reopen_witness :
    (closeOp (putOp (freshOpened 100) rA)).opened = false ∧
    (ensureOpened (closeOp (putOp (freshOpened 100) rA))).opened = true ∧
    (ensureOpened (closeOp (putOp (freshOpened 100) rA))).index =
      recoverAll (putOp (freshOpened 100) rA).index
        (sortSegs (putOp (freshOpened 100) rA).disk) ∧
    (getOp (closeOp (putOp (freshOpened 100) rA)) [107] 7000).2 =
      some ⟨[49], .text, none, none, 5000, 5000⟩ := by
  have h := C7_close_lazy_reopen (putOp (freshOpened 100) rA) [107] 7000
    (by decide)
  exact ⟨h.1, h.2.2.2.2.1, h.2.2.2.2.2.2 (1, encodePut rA) (by decide), by decide⟩

/-! ## The lexicographic key order -/

theorem keyLt_irrefl (a : Key) : keyLt a a = false := by
  induction a with
  | nil => rfl
  | cons x xs ih => simp [keyLt, ih]

theorem keyLt_trans (a b c : Key) (hab : keyLt a b = true)
    (hbc : keyLt b c = true) : keyLt a c = true := by
  induction a generalizing b c with
  | nil =>
    cases b with
    | nil => simp [keyLt] at hab
    | cons y ys =>
      cases c with
      | nil => simp [keyLt] at hbc
      | cons z zs => rfl
  | cons x xs ih =>
    cases b with
    | nil => simp [keyLt] at hab
    | cons y ys =>
      cases c with
      | nil => simp [keyLt] at hbc
      | cons z zs =>
        simp only [keyLt] at hab hbc ⊢
        by_cases hxy : x < y
        · by_cases hyz : y < z
          · rw [if_pos (show x < z by omega)]
          · rw [if_neg hyz] at hbc
            by_cases hzy : z < y
            · rw [if_pos hzy] at hbc
              simp at hbc
            · rw [if_neg hzy] at hbc
              have : y = z := by omega
              subst this
              rw [if_pos hxy]
        · rw [if_neg hxy] at hab
          by_cases hyx : y < x
          · rw [if_pos hyx] at hab
            simp at hab
          · rw [if_neg hyx] at hab
            have : x = y := by omega
            subst this
            by_cases hxz : x < z
            · rw [if_pos hxz]
            · rw [if_neg hxz] at hbc ⊢
              by_cases hzx : z < x
              · rw [if_pos hzx] at hbc
                simp at hbc
              · rw [if_neg hzx] at hbc ⊢
                exact ih ys zs hab hbc

theorem keyLt_connex (a b : Key) (hab : keyLt a b = false)
    (hba : keyLt b a = false) : a = b := by
  induction a generalizing b with
  | nil =>
    cases b with
    | nil => rfl
    | cons y ys => simp [keyLt] at hab
  | cons x xs ih =>
    cases b with
    | nil => simp [keyLt] at hba
    | cons y ys =>
      simp only [keyLt] at hab hba
      by_cases hxy : x < y
      · rw [if_pos hxy] at hab
        simp at hab
      · by_cases hyx : y < x
        · rw [if_pos hyx] at hba
          simp at hba
        · rw [if_neg hxy, if_neg hyx] at hab
          rw [if_neg hyx, if_neg hxy] at hba
          have : x = y := by omega
          subst this
          rw [ih ys hab hba]

theorem keyLt_asymm (a b : Key) (h : keyLt a b = true) : keyLt b a = false := by
  by_cases hba : keyLt b a = true
  · have := keyLt_trans a b a h hba
    rw [keyLt_irrefl] at this
    exact absurd this (by simp)
  · exact eq_false_of_ne_true hba

theorem keyLt_of_lt_of_nlt (a b c : Key) (hab : keyLt a b = true)
    (hcb : keyLt c b = false) : keyLt a c = true := by
  by_cases hac : keyLt a c = true
  · exact hac
  · exfalso
    by_cases hca : keyLt c a = true
    · rw [keyLt_trans c a b hca hab] at hcb
      exact absurd hcb (by simp)
    · have := keyLt_connex a c (eq_false_of_ne_true hac)
        (eq_false_of_ne_true hca)
      subst this
      rw [hab] at hcb
      exact absurd hcb (by simp)

theorem keyLt_of_nlt_of_lt (a b c : Key) (hba : keyLt b a = false)
    (hbc : keyLt b c = true) : keyLt a c = true := by
  by_cases hac : keyLt a c = true
  · exact hac
  · exfalso
    by_cases hca : keyLt c a = true
    · rw [keyLt_trans b c a hbc hca] at hba
      exact absurd hba (by simp)
    · have := keyLt_connex a c (eq_false_of_ne_true hac)
        (eq_false_of_ne_true hca)
      subst this
      rw [hbc] at hba
      exact absurd hba (by simp)

/-! ## Sorting lemmas -/

/-- Ascending (non-strict) sortedness, as the insertion sort produces. -/
def OrderedK (l : List Key) : Prop :=
  l.Pairwise (fun a b => keyLt b a = false)

/-- Strict ascending sortedness. -/
def SortedLtK (l : List Key) : Prop :=
  l.Pairwise (fun a b => keyLt a b = true)

theorem insertKeyAsc_perm (x : Key) (l : List Key) :
    List.Perm (insertKeyAsc x l) (x :: l) := by
  induction l with
  | nil => rfl
  | cons y ys ih =>
    by_cases h : keyLt y x = true
    · simp only [insertKeyAsc, if_pos h]
      exact List.Perm.trans (List.Perm.cons y ih) (List.Perm.swap x y ys)
    · simp only [insertKeyAsc, if_neg h]
      exact List.Perm.refl _

theorem sortKeys_perm (l : List Key) : List.Perm (sortKeys l) l := by
  induction l with
  | nil => rfl
  | cons x xs ih =>
    exact List.Perm.trans (insertKeyAsc_perm x (sortKeys xs))
      (List.Perm.cons x ih)

theorem mem_insertKeyAsc (x a : Key) (l : List Key) :
    a ∈ insertKeyAsc x l ↔ a = x ∨ a ∈ l := by
  rw [(insertKeyAsc_perm x l).mem_iff]
  simp

theorem insertKeyAsc_ordered (x : Key) (l : List Key) (h : OrderedK l) :
    OrderedK (insertKeyAsc x l) := by
  induction l with
  | nil =>
    unfold OrderedK insertKeyAsc
    simp
  | cons y ys ih =>
    unfold OrderedK at h ⊢
    rw [List.pairwise_cons] at h
    by_cases hyx : keyLt y x = true
    · simp only [insertKeyAsc, if_pos hyx]
      rw [List.pairwise_cons]
      constructor
      · intro a ha
        rw [mem_insertKeyAsc] at ha
        rcases ha with rfl | ha
        · exact keyLt_asymm y a hyx
        · exact h.1 a ha
      · exact ih h.2
    · simp only [insertKeyAsc, if_neg hyx]
      rw [List.pairwise_cons]
      constructor
      · intro a ha
        rcases List.mem_cons.mp ha with rfl | ha
        · exact eq_false_of_ne_true hyx
        · refine eq_false_of_ne_true (fun hax => ?_)
          have hc := keyLt_of_lt_of_nlt a x y hax (eq_false_of_ne_true hyx)
          rw [h.1 a ha] at hc
          simp at hc
      · rw [List.pairwise_cons]
        exact ⟨h.1, h.2⟩

theorem sortKeys_ordered (l : List Key) : OrderedK (sortKeys l) := by
  induction l with
  | nil => exact List.Pairwise.nil
  | cons x xs ih => exact insertKeyAsc_ordered x (sortKeys xs) ih

theorem sortKeys_sortedLt (l : List Key) (hnd : l.Nodup) :
    SortedLtK (sortKeys l) := by
  have hnd' : (sortKeys l).Nodup := (sortKeys_perm l).nodup_iff.mpr hnd
  have hord := sortKeys_ordered l
  unfold SortedLtK
  unfold OrderedK at hord
  have := List.Pairwise.and hord hnd'
  refine this.imp ?_
  rintro a b ⟨h1, h2⟩
  by_cases hab : keyLt a b = true
  · exact hab
  · exact absurd (keyLt_connex a b (eq_false_of_ne_true hab) h1) h2

/-! ## The collection loop of `list`, characterised -/

theorem takeLiveKV_nil (lookup : Key → Option LEntry) (now n : Nat) :
    takeLiveKV lookup now n [] = [] := by
  cases n <;> rfl

theorem loopComp_nil (lookup : Key → Option LEntry) (now n : Nat) :
    loopComp lookup now n [] = true := by
  cases n <;> rfl

theorem lastName_cons (kv : KVListKeyM) (page : List KVListKeyM)
    (last : Option Key) :
    lastName (kv :: page) last = lastName page (some kv.name) := by
  cases page with
  | nil => rfl
  | cons x xs =>
    unfold lastName
    rw [List.getLast?_cons_cons]
    cases hg : (x :: xs).getLast? with
    | none =>
      rw [List.getLast?_eq_none_iff] at hg
      simp at hg
    | some y => rfl

theorem lastName_none (page : List KVListKeyM) :
    lastName page none = (page.map (fun kv => kv.name)).getLast? := by
  unfold lastName
  rw [List.getLast?_map]
  cases hg : page.getLast? <;> rfl

/-- The collection loop, in closed form: it appends up to
`limit - acc.length` live keys to the page, tracks the last one added,
and reports completeness of the scan. -/
theorem listLoop_spec (lookup : Key → Option LEntry) (now limit : Nat)
    (keys : List Key) :
    ∀ (acc : List KVListKeyM) (last : Option Key),
    listLoop lookup now limit keys acc last =
      (acc ++ takeLiveKV lookup now (limit - acc.length) keys,
       lastName (takeLiveKV lookup now (limit - acc.length) keys) last,
       loopComp lookup now (limit - acc.length) keys) := by
  induction keys with
  | nil =>
    intro acc last
    rw [takeLiveKV_nil, loopComp_nil]
    simp [listLoop, lastName]
  | cons k rest ih =>
    intro acc last
    by_cases hfull : acc.length ≥ limit
    · have h0 : limit - acc.length = 0 := by omega
      rw [h0]
      simp only [listLoop, if_pos hfull]
      simp [takeLiveKV, loopComp, lastName]
    · obtain ⟨n, hn⟩ : ∃ n, limit - acc.length = n + 1 :=
        ⟨limit - acc.length - 1, by omega⟩
      rw [hn]
      simp only [listLoop, if_neg hfull]
      cases hlk : lookup k with
      | none =>
        simp only [hlk]
        rw [ih acc last, hn]
        simp [takeLiveKV, loopComp, hlk]
      | some e =>
        simp only [hlk]
        by_cases hexp : isExpiredJS e.expiresAt now = true
        · rw [if_pos hexp]
          rw [ih acc last, hn]
          simp [takeLiveKV, loopComp, hlk, hexp]
        · rw [if_neg hexp]
          rw [ih (acc ++ [mkListKey k e]) (some k)]
          have hlen : limit - (acc ++ [mkListKey k e]).length = n := by
            rw [List.length_append]
            simp only [List.length_cons, List.length_nil]
            omega
          rw [hlen]
          have hexp' : isExpiredJS e.expiresAt now = false :=
            eq_false_of_ne_true hexp
          simp [takeLiveKV, loopComp, hlk, hexp', lastName_cons, mkListKey]

/-- The names of the collected page: the first `n` live keys, in input
order. -/
theorem takeLiveKV_map_name (lookup : Key → Option LEntry) (now : Nat)
    (ks : List Key) :
    ∀ n, (takeLiveKV lookup now n ks).map (fun kv => kv.name) =
      (ks.filter (liveB lookup now)).take n := by
  induction ks with
  | nil => intro n; rw [takeLiveKV_nil]; simp
  | cons k rest ih =>
    intro n
    cases hlk : lookup k with
    | none =>
      have hl : liveB lookup now k = false := by simp [liveB, hlk]
      cases n with
      | zero => simp [takeLiveKV, hl]
      | succ m => simp [takeLiveKV, hlk, hl, ih]
    | some e =>
      by_cases hexp : isExpiredJS e.expiresAt now = true
      · have hl : liveB lookup now k = false := by simp [liveB, hlk, hexp]
        cases n with
        | zero => simp [takeLiveKV, hl]
        | succ m => simp [takeLiveKV, hlk, hexp, hl, ih]
      · have hexp' : isExpiredJS e.expiresAt now = false :=
          eq_false_of_ne_true hexp
        have hl : liveB lookup now k = true := by simp [liveB, hlk, hexp']
        cases n with
        | zero => simp [takeLiveKV, hl]
        | succ m => simp [takeLiveKV, hlk, hexp', hl, ih, mkListKey]

/-- Over all-live keys the completeness flag is exactly whether the
whole candidate list fits in the page. -/
theorem loopComp_live (lookup : Key → Option LEntry) (now : Nat)
    (ks : List Key) (hlive : ∀ k ∈ ks, liveB lookup now k = true) :
    ∀ n, loopComp lookup now n ks = decide (ks.length ≤ n) := by
  induction ks with
  | nil => intro n; rw [loopComp_nil]; simp
  | cons k rest ih =>
    intro n
    have hk : liveB lookup now k = true := hlive k (by simp)
    cases hlk : lookup k with
    | none => simp [liveB, hlk] at hk
    | some e =>
      have hexp : isExpiredJS e.expiresAt now = false := by
        simpa [liveB, hlk] using hk
      cases n with
      | zero => simp [loopComp]
      | succ m =>
        rw [show loopComp lookup now (m + 1) (k :: rest) =
            loopComp lookup now m rest by simp [loopComp, hlk, hexp]]
        rw [ih (fun x hx => hlive x (by simp [hx])) m]
        simp [Nat.succ_le_succ_iff]

/-- `findIdx?` with an arbitrary start index is the zero-based search
shifted. -/
theorem findIdx_shift (p : Key → Bool) (l : List Key) :
    ∀ n : Nat, List.findIdx? p l n =
      (List.findIdx? p l 0).map (fun i => i + n) := by
  induction l with
  | nil => intro n; rw [List.findIdx?_nil, List.findIdx?_nil]; rfl
  | cons a l ih =>
    intro n
    rw [List.findIdx?_cons, List.findIdx?_cons]
    by_cases hp : p a = true
    · rw [if_pos hp, if_pos hp]
      simp
    · rw [if_neg hp, if_neg hp, ih (n + 1), ih 1, Option.map_map]
      congr 1
      funext x
      simp only [Function.comp]
      omega

/-- Resuming after the `i`-th element of a strictly sorted key list
drops exactly the first `i + 1` elements. -/
theorem sliceAfter_get (M : List Key) (hs : SortedLtK M) :
    ∀ i (hi : i < M.length),
      sliceAfter M (M.get ⟨i, hi⟩) = M.drop (i + 1) := by
  induction M with
  | nil => intro i hi; exact absurd hi (by simp)
  | cons x xs ih =>
    unfold SortedLtK at hs
    rw [List.pairwise_cons] at hs
    intro i hi
    cases i with
    | zero =>
      show sliceAfter (x :: xs) x = xs
      unfold sliceAfter
      rw [List.findIdx?_cons, if_neg (by simp [keyLt_irrefl])]
      rw [findIdx_shift]
      cases xs with
      | nil => rw [List.findIdx?_nil]; rfl
      | cons y ys =>
        rw [List.findIdx?_cons, if_pos (hs.1 y (by simp))]
        rfl
    | succ j =>
      have hj : j < xs.length := by simpa using hi
      have hget : (x :: xs).get ⟨j + 1, hi⟩ = xs.get ⟨j, hj⟩ := rfl
      rw [hget]
      have hxa : keyLt x (xs.get ⟨j, hj⟩) = true :=
        hs.1 _ (List.get_mem xs j hj)
      have hax : keyLt xs[j] x = false := keyLt_asymm _ _ hxa
      unfold sliceAfter
      rw [List.findIdx?_cons, if_neg (by simp [hax]), findIdx_shift]
      have ihm := ih hs.2 j hj
      unfold sliceAfter at ihm
      cases hfi : List.findIdx? (fun k => keyLt (xs.get ⟨j, hj⟩) k) xs 0 with
      | none =>
        rw [hfi] at ihm
        show ([] : List Key) = (x :: xs).drop (j + 1 + 1)
        rw [List.drop_succ_cons]
        exact ihm
      | some m =>
        rw [hfi] at ihm
        show (x :: xs).drop (m + 1) = (x :: xs).drop (j + 1 + 1)
        rw [List.drop_succ_cons, List.drop_succ_cons]
        exact ihm

/-- Over all-live keys the page is just the first `n` keys. -/
theorem takeLiveKV_live_names (lookup : Key → Option LEntry) (now : Nat)
    (ks : List Key) (hlive : ∀ k ∈ ks, liveB lookup now k = true) (n : Nat) :
    (takeLiveKV lookup now n ks).map (fun kv => kv.name) = ks.take n := by
  rw [takeLiveKV_map_name, List.filter_eq_self.mpr hlive]

/-- A page over all-live keys that all fit: complete, no cursor. -/
theorem pageOf_complete (lookup : Key → Option LEntry) (now lim : Nat)
    (p : Key) (ks : List Key)
    (hlive : ∀ k ∈ ks, liveB lookup now k = true) (hlen : ks.length ≤ lim) :
    pageOf lookup now lim p ks =
      { keys := takeLiveKV lookup now lim ks, list_complete := true,
        cursor := none } := by
  unfold pageOf
  rw [listLoop_spec]
  simp only [List.length_nil, Nat.sub_zero, List.nil_append]
  rw [loopComp_live lookup now ks hlive lim, decide_eq_true hlen]
  simp

/-- A page over all-live keys with more matches than fit: exactly the
page-sized slice, incomplete, with a cursor naming the last key of the
page. -/
theorem pageOf_incomplete (lookup : Key → Option LEntry) (now lim : Nat)
    (p : Key) (ks : List Key)
    (hlive : ∀ k ∈ ks, liveB lookup now k = true)
    (h1 : 1 ≤ lim) (hgt : lim < ks.length) :
    pageOf lookup now lim p ks =
      { keys := takeLiveKV lookup now lim ks, list_complete := false,
        cursor := some (encodeCursor ⟨1, p, some (ks.getD (lim - 1) [])⟩) } := by
  unfold pageOf
  rw [listLoop_spec]
  simp only [List.length_nil, Nat.sub_zero, List.nil_append]
  rw [loopComp_live lookup now ks hlive lim,
    decide_eq_false (show ¬ ks.length ≤ lim by omega)]
  have hlast : lastName (takeLiveKV lookup now lim ks) none =
      some (ks.getD (lim - 1) []) := by
    rw [lastName_none, takeLiveKV_live_names lookup now ks hlive lim]
    rw [List.getLast?_eq_getElem?]
    have hlt : (List.take lim ks).length = lim := by
      rw [List.length_take]
      exact min_eq_left (le_of_lt hgt)
    rw [hlt, List.getElem?_take, if_pos (show lim - 1 < lim by omega)]
    rw [List.getElem?_eq_getElem (show lim - 1 < ks.length by omega)]
    rw [List.getD_eq_getElem ks [] (show lim - 1 < ks.length by omega)]
  rw [hlast]
  simp

/-- `listCore` without a cursor is a page over the whole sorted,
filtered key list. -/
theorem listCore_no_cursor (lookup : Key → Option LEntry) (K : List Key)
    (p : Key) (L : Int) (now : Nat) :
    listCore lookup K ⟨some p, some L, none⟩ now =
      pageOf lookup now (effLimit (some L)) p
        (sortKeys (K.filter (fun k => startsWithB p k))) := rfl

/-- `listCore` with a matching-prefix cursor is a page over the sorted,
filtered key list resumed strictly after the cursor's key. -/
theorem listCore_cursor (lookup : Key → Option LEntry) (K : List Key)
    (p : Key) (L : Int) (now : Nat) (a : Key) :
    listCore lookup K ⟨some p, some L, some (encodeCursor ⟨1, p, some a⟩)⟩
        now =
      pageOf lookup now (effLimit (some L)) p
        (sliceAfter (sortKeys (K.filter (fun k => startsWithB p k))) a) := by
  simp only [listCore, pageOf, effLimit, encodeCursor, decodeCursor]
  simp

/-- Resuming from a cursor that names the `i`-th sorted matching key
and following every returned cursor collects exactly the matching keys
strictly after position `i`, in order. -/
theorem collectPages_cursor (s : EngineState) (p : Key) (L : Int) (now : Nat)
    (M : List Key) (hop : s.opened = true)
    (hM : M = sortKeys ((s.index.map (fun q => q.1)).filter
      (fun k => startsWithB p k)))
    (hsrt : SortedLtK M)
    (hlive : ∀ k ∈ M, liveB (idxLookup s.index) now k = true)
    (hlim : 1 ≤ effLimit (some L)) :
    ∀ fuel i (hi : i < M.length), M.length - i ≤ fuel →
      (collectPages s p L now fuel
          (some (encodeCursor ⟨1, p, some (M.get ⟨i, hi⟩)⟩))).map
        (fun kv => kv.name) = M.drop (i + 1) := by
  intro fuel
  induction fuel with
  | zero => intro i hi hle; omega
  | succ f ihf =>
    intro i hi hle
    simp only [collectPages, listOp, ensureOpened_opened s hop]
    rw [listCore_cursor, ← hM, sliceAfter_get M hsrt i hi]
    have hlive' : ∀ k ∈ M.drop (i + 1),
        liveB (idxLookup s.index) now k = true :=
      fun k hk => hlive k (List.mem_of_mem_drop hk)
    by_cases hrem : (M.drop (i + 1)).length ≤ effLimit (some L)
    · rw [pageOf_complete _ _ _ _ _ hlive' hrem]
      show (takeLiveKV (idxLookup s.index) now (effLimit (some L))
            (M.drop (i + 1)) ++ ([] : List KVListKeyM)).map
          (fun kv => kv.name) = M.drop (i + 1)
      rw [List.append_nil, takeLiveKV_live_names _ _ _ hlive' _,
        List.take_of_length_le hrem]
    · have hrem' : effLimit (some L) < (M.drop (i + 1)).length := by omega
      rw [pageOf_incomplete _ _ _ _ _ hlive' hlim hrem']
      have hidx : i + effLimit (some L) < M.length := by
        have hld := List.length_drop (i + 1) M
        omega
      have hkey : (M.drop (i + 1)).getD (effLimit (some L) - 1) [] =
          M.get ⟨i + effLimit (some L), hidx⟩ := by
        rw [List.getD_eq_getElem _ []
          (show effLimit (some L) - 1 < (M.drop (i + 1)).length by
            rw [List.length_drop]; omega)]
        rw [List.getElem_drop]
        simp only [show i + 1 + (effLimit (some L) - 1) =
          i + effLimit (some L) from by omega]
        rfl
      show (takeLiveKV (idxLookup s.index) now (effLimit (some L))
            (M.drop (i + 1)) ++
          collectPages s p L now f
            (some (encodeCursor ⟨1, p,
              some ((M.drop (i + 1)).getD (effLimit (some L) - 1) [])⟩))).map
        (fun kv => kv.name) = M.drop (i + 1)
      rw [hkey, List.map_append,
        ihf (i + effLimit (some L)) hidx (by omega),
        takeLiveKV_live_names _ _ _ hlive' _]
      have hdd : M.drop (i + effLimit (some L) + 1) =
          (M.drop (i + 1)).drop (effLimit (some L)) := by
        rw [List.drop_drop]
        simp only [show i + effLimit (some L) + 1 =
          i + 1 + effLimit (some L) from by omega]
      rw [hdd, List.take_append_drop]

/-- C5: over an open store whose index keys are duplicate-free and in
which more than `L` keys match prefix `p`, all unexpired, `list` with
limit `L` (in the accepted range) returns exactly the first `L` keys of
the ascending sorted matching-key list `M`, in strictly ascending
order, flags the listing incomplete, and hands back a cursor naming the
`L`-th matching key; resuming from that cursor and following every
subsequent cursor yields exactly the remaining `M.length − L` keys, and
a full pagination pass collects exactly `M` — no duplicates, no
omissions. -/
theorem C5_pagination (s : EngineState) (p : Key) (L : Int) (now : Nat)
    (M : List Key) (r1 : ListResultM)
    (hop : s.opened = true)
    (hnd : (s.index.map (fun q => q.1)).Nodup)
    (hM : M = sortKeys ((s.index.map (fun q => q.1)).filter
      (fun k => startsWithB p k)))
    (hlive : ∀ k ∈ M, liveB (idxLookup s.index) now k = true)
    (hL1 : 1 ≤ L) (hL2 : L ≤ 10000)
    (hN : L.toNat < M.length)
    (hr1 : r1 = (listOp s ⟨some p, some L, none⟩ now).2) :
    r1.keys.map (fun kv => kv.name) = M.take L.toNat ∧
    r1.keys.length = L.toNat ∧
    SortedLtK (r1.keys.map (fun kv => kv.name)) ∧
    r1.list_complete = false ∧
    r1.cursor = some (encodeCursor ⟨1, p, some (M.getD (L.toNat - 1) [])⟩) ∧
    (collectPages s p L now M.length
        (some (encodeCursor ⟨1, p, some (M.getD (L.toNat - 1) [])⟩))).map
      (fun kv => kv.name) = M.drop L.toNat ∧
    (collectPages s p L now (M.length + 1) none).map
      (fun kv => kv.name) = M ∧
    M.Nodup := by
  have hlim : effLimit (some L) = L.toNat := by
    show (min (max 1 L) 10000).toNat = L.toNat
    rw [max_eq_right hL1, min_eq_left hL2]
  have h1lim : 1 ≤ L.toNat := by omega
  have hndM : M.Nodup := by
    rw [hM]
    exact (sortKeys_perm _).nodup_iff.mpr (List.Nodup.filter _ hnd)
  have hsrt : SortedLtK M := by
    rw [hM]
    exact sortKeys_sortedLt _ (List.Nodup.filter _ hnd)
  have hidx : L.toNat - 1 < M.length := by omega
  have hgd : M.getD (L.toNat - 1) [] = M.get ⟨L.toNat - 1, hidx⟩ := by
    rw [List.getD_eq_getElem M [] hidx]
    rfl
  have hr1' : r1 =
      { keys := takeLiveKV (idxLookup s.index) now L.toNat M,
        list_complete := false,
        cursor :=
          some (encodeCursor ⟨1, p, some (M.getD (L.toNat - 1) [])⟩) } := by
    rw [hr1]
    simp only [listOp, ensureOpened_opened s hop]
    show listCore (idxLookup s.index) (s.index.map (fun q => q.1))
      ⟨some p, some L, none⟩ now = _
    rw [listCore_no_cursor, hlim, ← hM]
    exact pageOf_incomplete _ _ _ _ _ hlive h1lim hN
  refine ⟨?_, ?_, ?_, ?_, ?_, ?_, ?_, hndM⟩
  · rw [hr1']
    exact takeLiveKV_live_names _ _ _ hlive _
  · rw [hr1']
    show (takeLiveKV (idxLookup s.index) now L.toNat M).length = L.toNat
    have hml := congrArg List.length
      (takeLiveKV_live_names (idxLookup s.index) now M hlive L.toNat)
    rw [List.length_map] at hml
    rw [hml, List.length_take]
    exact min_eq_left (le_of_lt hN)
  · rw [hr1']
    show SortedLtK ((takeLiveKV (idxLookup s.index) now L.toNat M).map
      (fun kv => kv.name))
    rw [takeLiveKV_live_names _ _ _ hlive _]
    exact List.Pairwise.sublist (List.take_sublist _ _) hsrt
  · rw [hr1']
  · rw [hr1']
  · rw [hgd]
    rw [collectPages_cursor s p L now M hop hM hsrt hlive
      (by rw [hlim]; omega) M.length (L.toNat - 1) hidx (by omega)]
    simp only [show L.toNat - 1 + 1 = L.toNat from by omega]
  · simp only [collectPages, listOp, ensureOpened_opened s hop]
    rw [listCore_no_cursor, hlim, ← hM,
      pageOf_incomplete _ _ _ _ _ hlive h1lim hN]
    show (takeLiveKV (idxLookup s.index) now L.toNat M ++
        collectPages s p L now M.length
          (some (encodeCursor ⟨1, p, some (M.getD (L.toNat - 1) [])⟩))).map
      (fun kv => kv.name) = M
    rw [List.map_append, hgd,
      collectPages_cursor s p L now M hop hM hsrt hlive
        (by rw [hlim]; omega) M.length (L.toNat - 1) hidx (by omega),
      takeLiveKV_live_names _ _ _ hlive _]
    simp only [show L.toNat - 1 + 1 = L.toNat from by omega]
    exact List.take_append_drop _ M

/-- C5, witness: a store with keys `"k"` and `"b"`, empty prefix,
limit 1 — the full pagination pass returns `["b", "k"]` in order. -/
theorem C5_pagination_witness :
    (putOp (putOp (freshOpened 1000) rA) rC).opened = true ∧
    (collectPages (putOp (putOp (freshOpened 1000) rA) rC) [] 1 10000
        (([[98], [107]] : List Key).length + 1) none).map
      (fun kv => kv.name) = [[98], [107]] :=
  ⟨by decide,
   (C5_pagination (putOp (putOp (freshOpened 1000) rA) rC) [] 1 10000
      [[98], [107]] _ (by decide) (by decide) (by decide) (by decide)
      (by decide) (by decide) (by decide) rfl).2.2.2.2.2.2.1⟩

/-! ## Segment-content algebra for recovery refinement -/

theorem concatD_snoc (ds : List DRec) (d : DRec) :
    concatD (ds ++ [d]) = concatD ds ++ encodeD d := by
  simp [concatD]

theorem recoverAll_cons (idx : Index) (x : Nat × List Nat)
    (l : List (Nat × List Nat)) :
    recoverAll idx (x :: l) = recoverAll (recoverSegment idx x.1 x.2) l := rfl

/-- Semantic replay of a segment with one more record at its end. -/
theorem scanSemFrom_snoc (segId : Nat) (ds : List DRec) (d : DRec) :
    ∀ (pos : Nat) (idx : Index),
    scanSemFrom segId pos idx (ds ++ [d]) =
      applyD segId (pos + (concatD ds).length)
        (scanSemFrom segId pos idx ds) d := by
  induction ds with
  | nil => intro pos idx; rfl
  | cons d0 ds ih =>
    intro pos idx
    show scanSemFrom segId (pos + sizeD d0) (applyD segId pos idx d0)
        (ds ++ [d]) =
      applyD segId (pos + (concatD (d0 :: ds)).length)
        (scanSemFrom segId pos idx (d0 :: ds)) d
    rw [ih]
    have hc : (concatD (d0 :: ds)).length = sizeD d0 + (concatD ds).length := by
      simp [concatD, length_encodeD]
    rw [show pos + sizeD d0 + (concatD ds).length =
      pos + (concatD (d0 :: ds)).length from by omega]
    rfl

/-- Replay of a directory with its last segment split off. -/
theorem foldIdxAux_append (pre : List (List DRec)) :
    ∀ (idx : Index) (segId : Nat) (cur : List DRec),
    foldIdxAux idx segId (pre ++ [cur]) =
      scanSemFrom (segId + pre.length) 0 (foldIdxAux idx segId pre) cur := by
  induction pre with
  | nil => intro idx segId cur; rfl
  | cons seg rest ih =>
    intro idx segId cur
    show foldIdxAux (scanSemFrom segId 0 idx seg) (segId + 1) (rest ++ [cur]) =
      scanSemFrom (segId + (seg :: rest).length) 0
        (foldIdxAux idx segId (seg :: rest)) cur
    rw [ih (scanSemFrom segId 0 idx seg) (segId + 1) cur]
    rw [show segId + 1 + rest.length = segId + (seg :: rest).length from by
      simp only [List.length_cons]; omega]
    rfl

/-- Appending one record to the active segment updates the replayed
index by one `applyD` at the current end-of-segment offset. -/
theorem foldIdx_update_last (pre : List (List DRec)) (cur : List DRec)
    (d : DRec) :
    foldIdx (pre ++ [cur ++ [d]]) =
      applyD (pre.length + 1) (concatD cur).length
        (foldIdx (pre ++ [cur])) d := by
  unfold foldIdx
  rw [foldIdxAux_append pre [] 1 (cur ++ [d]), scanSemFrom_snoc,
    ← foldIdxAux_append pre [] 1 cur,
    show (1 : Nat) + pre.length = pre.length + 1 from Nat.add_comm 1 _,
    Nat.zero_add]

/-- Writing the first record of a fresh segment updates the replayed
index by one `applyD` at offset 0 of the new segment. -/
theorem foldIdx_new_seg (pre : List (List DRec)) (cur : List DRec)
    (d : DRec) :
    foldIdx ((pre ++ [cur]) ++ [[d]]) =
      applyD (pre.length + 2) 0 (foldIdx (pre ++ [cur])) d := by
  unfold foldIdx
  rw [foldIdxAux_append (pre ++ [cur]) [] 1 [d]]
  show applyD (1 + (pre ++ [cur]).length) 0
      (foldIdxAux [] 1 (pre ++ [cur])) d = _
  rw [show (1 : Nat) + (pre ++ [cur]).length = pre.length + 2 from by
    simp only [List.length_append, List.length_cons, List.length_nil]; omega]

theorem segFiles_snoc (m : List (List DRec)) (seg : List DRec) :
    segFiles (m ++ [seg]) = segFiles m ++ [(m.length + 1, concatD seg)] := by
  unfold segFiles
  have hlen : (m ++ [seg]).length = m.length + 1 := by simp
  rw [hlen, List.range_succ, List.map_append]
  congr 1
  · exact List.map_congr_left (fun i hi => by
      rw [List.mem_range] at hi
      rw [List.getD_append m [seg] [] i hi])
  · simp only [List.map_cons, List.map_nil]
    rw [List.getD_append_right m [seg] [] m.length (le_refl _)]
    simp

/-- Appending record bytes to the active segment file is exactly the
append of the record to the active segment's logical contents. -/
theorem segFiles_append_last (pre : List (List DRec)) (cur : List DRec)
    (d : DRec) :
    diskAppend (segFiles (pre ++ [cur])) (pre.length + 1) (encodeD d) =
      segFiles (pre ++ [cur ++ [d]]) := by
  unfold diskAppend segFiles
  rw [List.map_map]
  have hlen1 : (pre ++ [cur]).length = pre.length + 1 := by simp
  have hlen2 : (pre ++ [cur ++ [d]]).length = pre.length + 1 := by simp
  rw [hlen1, hlen2]
  apply List.map_congr_left
  intro i hi
  rw [List.mem_range] at hi
  simp only [Function.comp]
  by_cases hc : i = pre.length
  · subst hc
    rw [if_pos (by simp)]
    rw [List.getD_append_right pre [cur] [] pre.length (le_refl _),
      List.getD_append_right pre [cur ++ [d]] [] pre.length (le_refl _)]
    simp [concatD]
  · have hilt : i < pre.length := by omega
    rw [if_neg (by simp; omega)]
    rw [List.getD_append pre [cur] [] i hilt,
      List.getD_append pre [cur ++ [d]] [] i hilt]

/-- The directory never holds a segment beyond the active one. -/
theorem diskGet_segFiles_none (m : List (List DRec)) (id : Nat)
    (h : m.length < id) : diskGet (segFiles m) id = none := by
  unfold diskGet
  have hf : (segFiles m).find? (fun e => e.1 == id) = none := by
    rw [List.find?_eq_none]
    intro x hx
    unfold segFiles at hx
    rw [List.mem_map] at hx
    obtain ⟨i, hi, rfl⟩ := hx
    rw [List.mem_range] at hi
    simp
    omega
  rw [hf]
  rfl

theorem segFiles_pairwise (m : List (List DRec)) :
    (segFiles m).Pairwise (fun a b => a.1 < b.1) := by
  unfold segFiles
  exact List.Pairwise.map _
    (fun a b hab => by show a + 1 < b + 1; omega)
    (List.pairwise_lt_range m.length)

/-- Sorting by id is the identity on an id-sorted directory listing. -/
theorem sortSegs_of_pairwise (l : List (Nat × List Nat))
    (h : l.Pairwise (fun a b => a.1 < b.1)) : sortSegs l = l := by
  induction l with
  | nil => rfl
  | cons x xs ih =>
    rw [List.pairwise_cons] at h
    show insertSeg x (sortSegs xs) = x :: xs
    rw [ih h.2]
    cases xs with
    | nil => rfl
    | cons y ys =>
      show (if y.1 < x.1 then y :: insertSeg x ys else x :: y :: ys) =
        x :: y :: ys
      rw [if_neg (by have := h.1 y (by simp); omega)]

theorem validSegs_extend (pre : List (List DRec)) (cur : List DRec)
    (d : DRec) (hvs : ValidSegs (pre ++ [cur])) (hd : ValidD d) :
    ValidSegs (pre ++ [cur ++ [d]]) := by
  intro seg hseg d' hd'
  rw [List.mem_append, List.mem_singleton] at hseg
  rcases hseg with hseg | rfl
  · exact hvs seg (by simp [hseg]) d' hd'
  · rw [List.mem_append, List.mem_singleton] at hd'
    rcases hd' with hd' | rfl
    · exact hvs cur (by simp) d' hd'
    · exact hd

theorem validSegs_push (m : List (List DRec)) (hvs : ValidSegs m) :
    ValidSegs (m ++ [[]]) := by
  intro seg hseg d hd
  rw [List.mem_append, List.mem_singleton] at hseg
  rcases hseg with hseg | rfl
  · exact hvs seg hseg d hd
  · simp at hd

theorem agreeLoc_idxSet (i j : Index) (k : Key) (e f : Entry)
    (h : AgreeLoc i j) (he : projLoc e = projLoc f) :
    AgreeLoc (idxSet i k e) (idxSet j k f) := by
  intro k'
  rw [idxGet_idxSet, idxGet_idxSet]
  by_cases hk : k' = k
  · rw [if_pos hk, if_pos hk]
    simp [he]
  · rw [if_neg hk, if_neg hk]
    exact h k'

theorem agreeLoc_idxDelete (i j : Index) (k : Key)
    (h : AgreeLoc i j) : AgreeLoc (idxDelete i k) (idxDelete j k) := by
  intro k'
  rw [idxGet_idxDelete, idxGet_idxDelete]
  by_cases hk : k' = k
  · rw [if_pos hk, if_pos hk]
  · rw [if_neg hk, if_neg hk]
    exact h k'

/-- The byte-level recovery scan of a directory of fully valid segment
files is the semantic replay of their records, segment by segment. -/
theorem recoverAll_ranged (m : List (List DRec)) :
    ∀ (start : Nat) (idx : Index), ValidSegs m →
    recoverAll idx ((List.range m.length).map
      (fun i => (start + 1 + i, concatD (m.getD i [])))) =
      foldIdxAux idx (start + 1) m := by
  induction m with
  | nil => intro start idx _; rfl
  | cons seg rest ih =>
    intro start idx hvs
    have hval_seg : ∀ d ∈ seg, ValidD d := fun d hd => hvs seg (by simp) d hd
    have hval_rest : ValidSegs rest := fun t ht d hd => hvs t (by simp [ht]) d hd
    show recoverAll idx ((List.range (rest.length + 1)).map
      (fun i => (start + 1 + i, concatD ((seg :: rest).getD i [])))) = _
    rw [List.range_succ_eq_map, List.map_cons, List.map_map, recoverAll_cons]
    rw [show recoverSegment idx
        ((start + 1 + 0, concatD ((seg :: rest).getD 0 [])) : Nat × List Nat).1
        ((start + 1 + 0, concatD ((seg :: rest).getD 0 [])) : Nat × List Nat).2 =
        scanSemFrom (start + 1) 0 idx seg from by
      show recoverSegment idx (start + 1) (concatD seg) = _
      exact recoverSegment_concatD idx (start + 1) seg hval_seg]
    rw [List.map_congr_left (fun i hi =>
      show ((fun i => (start + 1 + i, concatD ((seg :: rest).getD i []))) ∘
          Nat.succ) i = (start + 1 + 1 + i, concatD (rest.getD i [])) from by
        simp only [Function.comp]
        rw [show start + 1 + Nat.succ i = start + 1 + 1 + i from by omega,
          List.getD_cons_succ])]
    exact ih (start + 1) (scanSemFrom (start + 1) 0 idx seg) hval_rest

theorem recoverAll_segFiles (m : List (List DRec)) (hvs : ValidSegs m)
    (idx : Index) : recoverAll idx (segFiles m) = foldIdxAux idx 1 m := by
  have h := recoverAll_ranged m 0 idx hvs
  have hs : segFiles m = (List.range m.length).map
      (fun i => (0 + 1 + i, concatD (m.getD i []))) := by
    unfold segFiles
    exact List.map_congr_left (fun i hi => by
      rw [show i + 1 = 0 + 1 + i from by omega])
  rw [hs, h]

/-- A fresh instance constructed over the directory of a reachable
state recovers, on its lazy open, exactly the semantic replay of all
segments. -/
theorem reopenFresh_index (max : Nat) (pre : List (List DRec))
    (cur : List DRec) (hvs : ValidSegs (pre ++ [cur])) :
    (reopenFresh max (segFiles (pre ++ [cur]))).index =
      foldIdx (pre ++ [cur]) := by
  unfold reopenFresh
  have hss : sortSegs (segFiles (pre ++ [cur])) = segFiles (pre ++ [cur]) :=
    sortSegs_of_pairwise _ (segFiles_pairwise _)
  have hlast : (sortSegs (segFiles (pre ++ [cur]))).getLast? =
      some (pre.length + 1, concatD cur) := by
    rw [hss, segFiles_snoc, List.getLast?_concat]
  rw [ensureOpened_index_of_closed _ rfl _ hlast]
  show recoverAll [] (sortSegs (segFiles (pre ++ [cur]))) = _
  rw [hss, recoverAll_segFiles _ hvs]
  rfl

/-- The freshly opened empty store satisfies the abstraction invariant
with one empty active segment. -/
theorem inv_fresh (max : Nat) : Inv (freshOpened max) [] [] := by
  refine ⟨rfl, rfl, rfl, ?_, rfl, rfl, fun k => rfl⟩
  intro seg hseg d hd
  simp at hseg
  subst hseg
  simp at hd

/-- `put` preserves the abstraction invariant: the record lands either
at the end of the active segment or as the first record of a fresh
one. -/
theorem inv_putOp (s : EngineState) (pre : List (List DRec))
    (cur : List DRec) (r : Rec) (hinv : Inv s pre cur)
    (hvr : ValidD (.data r)) :
    ∃ pre' cur', Inv (putOp s r) pre' cur' := by
  obtain ⟨hop, hid, hdisk, hvs, hoff, hsz, hagree⟩ := hinv
  by_cases hrot : s.activeSize + (HEADER_SIZE + r.key.length + r.val.length) >
      s.segmentMaxBytes
  · refine ⟨pre ++ [cur], [.data r], ?_⟩
    have hfresh : diskGet s.disk (s.activeId + 1) = none := by
      rw [hdisk, hid]
      exact diskGet_segFiles_none _ _ (by simp)
    rw [putOp_rotate_eq s r hop hfresh hrot]
    refine ⟨hop, ?_, ?_, ?_, ?_, rfl, ?_⟩
    · show s.activeId + 1 = (pre ++ [cur]).length + 1
      rw [hid]
      simp
    · show diskAppend (s.disk ++ [(s.activeId + 1, [])]) (s.activeId + 1)
        (encodePut r) = segFiles ((pre ++ [cur]) ++ [[DRec.data r]])
      rw [hdisk, hid]
      have h1 : segFiles (pre ++ [cur]) ++
          [(pre.length + 1 + 1, ([] : List Nat))] =
          segFiles ((pre ++ [cur]) ++ [[]]) := by
        rw [segFiles_snoc (pre ++ [cur]) []]
        simp [concatD]
      rw [h1]
      have h2 := segFiles_append_last (pre ++ [cur]) [] (DRec.data r)
      rw [show (pre ++ [cur]).length + 1 = pre.length + 1 + 1 from by simp]
        at h2
      simp only [List.nil_append] at h2
      show diskAppend (segFiles ((pre ++ [cur]) ++ [[]])) (pre.length + 1 + 1)
        (encodeD (DRec.data r)) = _
      exact h2
    · have := validSegs_extend (pre ++ [cur]) [] (DRec.data r)
        (validSegs_push _ hvs) hvr
      simpa using this
    · show HEADER_SIZE + r.key.length + r.val.length =
        (concatD [DRec.data r]).length
      rw [show concatD [DRec.data r] = encodeD (DRec.data r) from by
        simp [concatD], length_encodeD]
      rfl
    · show AgreeLoc (idxSet s.index r.key
          ⟨s.activeId + 1, 0, HEADER_SIZE + r.key.length + r.val.length,
            r.updatedAt, r.expiresAt, r.metadata⟩)
        (foldIdx ((pre ++ [cur]) ++ [[DRec.data r]]))
      rw [foldIdx_new_seg]
      show AgreeLoc _ (idxSet (foldIdx (pre ++ [cur])) r.key
        ⟨pre.length + 2, 0, sizeD (DRec.data r), r.updatedAt % 2 ^ 32,
          recExpBits (doubleBitsOfNat (r.expiresAt.getD 0)), none⟩)
      exact agreeLoc_idxSet _ _ _ _ _ hagree (by
        show (s.activeId + 1, 0,
            HEADER_SIZE + r.key.length + r.val.length) =
          ((pre.length + 2 : Nat), (0 : Nat), sizeD (DRec.data r))
        rw [hid]
        rfl)
  · refine ⟨pre, cur ++ [.data r], ?_⟩
    rw [putOp_norotate_eq s r hop hrot]
    refine ⟨hop, hid, ?_, ?_, ?_, ?_, ?_⟩
    · show diskAppend s.disk s.activeId (encodePut r) =
        segFiles (pre ++ [cur ++ [DRec.data r]])
      rw [hdisk, hid]
      show diskAppend (segFiles (pre ++ [cur])) (pre.length + 1)
        (encodeD (DRec.data r)) = _
      exact segFiles_append_last pre cur (DRec.data r)
    · exact validSegs_extend pre cur (DRec.data r) hvs hvr
    · show s.activeOffset + (HEADER_SIZE + r.key.length + r.val.length) =
        (concatD (cur ++ [DRec.data r])).length
      rw [hoff, concatD_snoc, List.length_append, length_encodeD]
      rfl
    · show s.activeSize + (HEADER_SIZE + r.key.length + r.val.length) =
        s.activeOffset + (HEADER_SIZE + r.key.length + r.val.length)
      rw [hsz]
    · show AgreeLoc (idxSet s.index r.key
          ⟨s.activeId, s.activeOffset,
            HEADER_SIZE + r.key.length + r.val.length,
            r.updatedAt, r.expiresAt, r.metadata⟩)
        (foldIdx (pre ++ [cur ++ [DRec.data r]]))
      rw [foldIdx_update_last]
      show AgreeLoc _ (idxSet (foldIdx (pre ++ [cur])) r.key
        ⟨pre.length + 1, (concatD cur).length, sizeD (DRec.data r),
          r.updatedAt % 2 ^ 32,
          recExpBits (doubleBitsOfNat (r.expiresAt.getD 0)), none⟩)
      exact agreeLoc_idxSet _ _ _ _ _ hagree (by
        show (s.activeId, s.activeOffset,
            HEADER_SIZE + r.key.length + r.val.length) =
          ((pre.length + 1 : Nat), (concatD cur).length,
            sizeD (DRec.data r))
        rw [hid, hoff]
        rfl)

/-- `delete` preserves the abstraction invariant: a no-op on an absent
key, otherwise a tombstone append mirroring `put`. -/
theorem inv_deleteOp (s : EngineState) (pre : List (List DRec))
    (cur : List DRec) (k : Key) (now : Nat) (hinv : Inv s pre cur)
    (hvk : k.length < 2 ^ 16) :
    ∃ pre' cur', Inv (deleteOp s k now) pre' cur' := by
  obtain ⟨hop, hid, hdisk, hvs, hoff, hsz, hagree⟩ := hinv
  cases habs : idxGet s.index k with
  | none =>
    have hnoop : deleteOp s k now = s := by
      simp only [deleteOp]
      rw [ensureOpened_opened s hop, habs]
    exact ⟨pre, cur, by
      rw [hnoop]
      exact ⟨hop, hid, hdisk, hvs, hoff, hsz, hagree⟩⟩
  | some e =>
    by_cases hrot : s.activeSize + (HEADER_SIZE + k.length) >
        s.segmentMaxBytes
    · refine ⟨pre ++ [cur], [.tomb k now], ?_⟩
      have hfresh : diskGet s.disk (s.activeId + 1) = none := by
        rw [hdisk, hid]
        exact diskGet_segFiles_none _ _ (by simp)
      rw [deleteOp_rotate_eq s k now e hop habs hfresh hrot]
      refine ⟨hop, ?_, ?_, ?_, ?_, rfl, ?_⟩
      · show s.activeId + 1 = (pre ++ [cur]).length + 1
        rw [hid]
        simp
      · show diskAppend (s.disk ++ [(s.activeId + 1, [])]) (s.activeId + 1)
          (encodeTomb k now) = segFiles ((pre ++ [cur]) ++ [[DRec.tomb k now]])
        rw [hdisk, hid]
        have h1 : segFiles (pre ++ [cur]) ++
            [(pre.length + 1 + 1, ([] : List Nat))] =
            segFiles ((pre ++ [cur]) ++ [[]]) := by
          rw [segFiles_snoc (pre ++ [cur]) []]
          simp [concatD]
        rw [h1]
        have h2 := segFiles_append_last (pre ++ [cur]) [] (DRec.tomb k now)
        rw [show (pre ++ [cur]).length + 1 = pre.length + 1 + 1 from by simp]
          at h2
        simp only [List.nil_append] at h2
        show diskAppend (segFiles ((pre ++ [cur]) ++ [[]]))
          (pre.length + 1 + 1) (encodeD (DRec.tomb k now)) = _
        exact h2
      · have := validSegs_extend (pre ++ [cur]) [] (DRec.tomb k now)
          (validSegs_push _ hvs) hvk
        simpa using this
      · show HEADER_SIZE + k.length = (concatD [DRec.tomb k now]).length
        rw [show concatD [DRec.tomb k now] = encodeD (DRec.tomb k now) from by
          simp [concatD], length_encodeD]
        rfl
      · show AgreeLoc (idxDelete s.index k)
          (foldIdx ((pre ++ [cur]) ++ [[DRec.tomb k now]]))
        rw [foldIdx_new_seg]
        show AgreeLoc _ (idxDelete (foldIdx (pre ++ [cur])) k)
        exact agreeLoc_idxDelete _ _ _ hagree
    · refine ⟨pre, cur ++ [.tomb k now], ?_⟩
      rw [deleteOp_norotate_eq s k now e hop habs hrot]
      refine ⟨hop, hid, ?_, ?_, ?_, ?_, ?_⟩
      · show diskAppend s.disk s.activeId (encodeTomb k now) =
          segFiles (pre ++ [cur ++ [DRec.tomb k now]])
        rw [hdisk, hid]
        show diskAppend (segFiles (pre ++ [cur])) (pre.length + 1)
          (encodeD (DRec.tomb k now)) = _
        exact segFiles_append_last pre cur (DRec.tomb k now)
      · exact validSegs_extend pre cur (DRec.tomb k now) hvs hvk
      · show s.activeOffset + (HEADER_SIZE + k.length) =
          (concatD (cur ++ [DRec.tomb k now])).length
        rw [hoff, concatD_snoc, List.length_append, length_encodeD]
        rfl
      · show s.activeSize + (HEADER_SIZE + k.length) =
          s.activeOffset + (HEADER_SIZE + k.length)
        rw [hsz]
      · show AgreeLoc (idxDelete s.index k)
          (foldIdx (pre ++ [cur ++ [DRec.tomb k now]]))
        rw [foldIdx_update_last]
        show AgreeLoc _ (idxDelete (foldIdx (pre ++ [cur])) k)
        exact agreeLoc_idxDelete _ _ _ hagree

theorem inv_stepOp (s : EngineState) (pre : List (List DRec))
    (cur : List DRec) (op : Op) (hinv : Inv s pre cur)
    (hv : ValidOp op) :
    ∃ pre' cur', Inv (stepOp s op) pre' cur' := by
  cases op with
  | put r => exact inv_putOp s pre cur r hinv hv
  | del k now => exact inv_deleteOp s pre cur k now hinv hv

theorem inv_runOps (ops : List Op) :
    ∀ (s : EngineState) (pre : List (List DRec)) (cur : List DRec),
    Inv s pre cur → (∀ op ∈ ops, ValidOp op) →
    ∃ pre' cur', Inv (runOps s ops) pre' cur' := by
  induction ops with
  | nil => intro s pre cur hinv _; exact ⟨pre, cur, hinv⟩
  | cons op rest ih =>
    intro s pre cur hinv hval
    obtain ⟨pre', cur', hinv'⟩ :=
      inv_stepOp s pre cur op hinv (hval op (by simp))
    exact ih (stepOp s op) pre' cur' hinv' (fun o ho => hval o (by simp [ho]))

/-- C2: for every sequence of valid `put`/`delete` operations run from
a fresh store, the index a brand-new instance rebuilds by recovery over
the resulting directory (scanning segments in ascending id order, data
records overwriting and tombstones removing their key) holds exactly
the keys of the engine's in-memory index with identical record
locations (segment id, byte offset, record size) — so each key maps to
its most recent surviving record and tombstoned keys are absent.  In
particular `put(k,v1)` in segment 1 followed by a rotated `put(k,v2)`
in segment 2 makes `get(k)` return `v2` after recovery, and
`put(k,v1)`, reopen, `delete(k)`, reopen makes `get(k)` return absent
after recovery. -/
theorem C2_recovery_rebuilds_index (max : Nat) (ops : List Op)
    (hval : ∀ op ∈ ops, ValidOp op) :
    AgreeLoc (runOps (freshOpened max) ops).index
      (reopenFresh max (runOps (freshOpened max) ops).disk).index ∧
    (runOps (freshOpened 30) [Op.put rA, Op.put rB]).activeId = 2 ∧
    (getOp (reopenFresh 30
        (runOps (freshOpened 30) [Op.put rA, Op.put rB]).disk)
      [107] 8000).2 = some ⟨[50], .text, none, none, 6000, 6000⟩ ∧
    (getOp (reopenFresh 1000
        (deleteOp (reopenFresh 1000 (putOp (freshOpened 1000) rA).disk)
          [107] 8000).disk) [107] 9000).2 = none := by
  refine ⟨?_, by decide, by decide, by decide⟩
  obtain ⟨pre, cur, hinv⟩ :=
    inv_runOps ops (freshOpened max) [] [] (inv_fresh max) hval
  obtain ⟨hop, hid, hdisk, hvs, hoff, hsz, hagree⟩ := hinv
  rw [hdisk, reopenFresh_index max pre cur hvs]
  exact hagree

/-- C2, witness: one put and one delete on a small store — recovery of
the resulting directory agrees with the live index. -/
theorem C2_recovery_rebuilds_index_witness :
    (∀ op ∈ [Op.put rA, Op.del [107] 7000], ValidOp op) ∧
    AgreeLoc
      (runOps (freshOpened 100) [Op.put rA, Op.del [107] 7000]).index
      (reopenFresh 100
        (runOps (freshOpened 100)
          [Op.put rA, Op.del [107] 7000]).disk).index := by
  have hv : ∀ op ∈ [Op.put rA, Op.del [107] 7000], ValidOp op := by
    intro op hop
    rcases List.mem_cons.mp hop with rfl | hop
    · exact ⟨by decide, by decide, by decide⟩
    · rw [List.mem_singleton] at hop
      subst hop
      show ([107] : Key).length < 2 ^ 16
      decide
  exact ⟨hv,
    (C2_recovery_rebuilds_index 100 [Op.put rA, Op.del [107] 7000] hv).1⟩

end KVLG
